import Mathlib

/-!
Verification of the smarthop SR920 driver against its specification.

The development shallowly embeds the Python sources under `smarthop/sr920/`:

* `command.py` — the schema-driven codec (`SR920Command.to_bytes`,
  `SR920Command.parse`, `_pack_parameters`, `_unpack_parameters`);
* `protocol.py` — escaping and framing (`SR920Protocol._escape`,
  `SR920Protocol._unescape`, `_worker_writer`);
* `sr920.py` — the transaction engine (`get_response`,
  `_on_command_received`, `get_node_list`, `update`);
* `enums.py` — the command-id and configuration enumerations.

Bytes are modelled as `List Nat` with values below 256, Python dicts as
association lists with dict-style insertion, and the recursive template
interpreter is given explicit fuel (Python recursion is unbounded; fuel
exhaustion models divergence / recursion-limit failure as `none`).
Fallible Python code (raised exceptions) is modelled with `Option`.
-/

/-- Big-endian byte encoding of a natural number into exactly `l` bytes,
mirroring Python `int.to_bytes(l, "big")` after its range check. -/

def natToBE : Nat → Nat → List Nat
  | _, 0 => []
  | v, l + 1 => natToBE (v / 256) l ++ [v % 256]

/-- Big-endian value of a byte list, mirroring Python
`int.from_bytes(bs, "big")`. -/

def beNat (bs : List Nat) : Nat := bs.foldl (fun acc b => acc * 256 + b) 0

/-- Lowercase hexadecimal digit character for a value below 16, as produced
by Python `bytes.hex()`. -/

def toHexDigit (n : Nat) : Char :=
  if n < 10 then Char.ofNat (48 + n) else Char.ofNat (87 + n)

/-- The character list of Python `bytes.hex()`: two lowercase digits per
byte, high nibble first. -/

def bytesToHexChars (bs : List Nat) : List Char :=
  bs.flatMap fun b => [toHexDigit (b / 16), toHexDigit (b % 16)]

/-- Python `bytes.hex()`. -/

def bytesToHex (bs : List Nat) : String := String.mk (bytesToHexChars bs)

/-- Value of one hexadecimal digit character, upper or lower case, as
accepted by Python `int(s, 16)`. -/

def hexDigitVal (c : Char) : Option Nat :=
  if 48 ≤ c.toNat ∧ c.toNat ≤ 57 then some (c.toNat - 48)
  else if 97 ≤ c.toNat ∧ c.toNat ≤ 102 then some (c.toNat - 87)
  else if 65 ≤ c.toNat ∧ c.toNat ≤ 70 then some (c.toNat - 55)
  else none

def parseHexChars : List Char → Nat → Option Nat
  | [], acc => some acc
  | c :: r, acc =>
    match hexDigitVal c with
    | some d => parseHexChars r (acc * 16 + d)
    | none => none

/-- Python `int(s, 16)` restricted to plain nonempty hex-digit strings (the
only shape the catalog and callers use). -/

def parseHex (s : String) : Option Nat :=
  if s.data.isEmpty then none else parseHexChars s.data 0

/-! ## Parameter values and Python dicts

A Python parameter value as the codec manipulates it: booleans, ints,
ASCII strings, hexadecimal strings, byte strings, nested dicts, lists,
and enum members.  An enum member carries its enum type name, its member
name and its numeric value, as a Python `enum.Enum` instance does. -/

inductive PValue where
  | vBool : Bool → PValue
  | vInt : Int → PValue
  | vStr : String → PValue
  | vHex : String → PValue
  | vBytes : List Nat → PValue
  | vObject : List (String × PValue) → PValue
  | vArray : List PValue → PValue
  | vEnum (etype ename : String) (value : Nat) : PValue

/-- A Python dict of command parameters, as an insertion-ordered
association list. -/

abbrev Params := List (String × PValue)

/-- Python `d[k]` lookup (as an `Option`: `none` models `KeyError` /
`k not in d`). -/

def dictLookup (ps : Params) (k : String) : Option PValue :=
  (ps.find? fun p => p.1 == k).map (·.2)

/-- Python `d[k] = v`: replaces in place when the key exists, else appends. -/

def dictInsert (ps : Params) (k : String) (v : PValue) : Params :=
  if ps.any (fun p => p.1 == k) then
    ps.map fun p => if p.1 == k then (k, v) else p
  else ps ++ [(k, v)]

/-- Keys of a dict are pairwise distinct (every well-formed Python dict
satisfies this; it is stated on the association-list model). -/

def keysNodupB : Params → Bool
  | [] => true
  | (k, _) :: r => !(r.any fun p => p.1 == k) && keysNodupB r

/-! ## Field templates

One node of the `commands.json` schema tree, exactly the fields
`_pack_parameters` / `_unpack_parameters` read: `type`, `name`, `length`,
`byteorder`, `signed`, `value`, `true-value`, `false-value`,
`properties`, `items`, `cases`.  The `bytes` constructor also stands for
any unrecognized `type` string (the code's fall-through branch). -/

inductive Endian where
  | big
  | little
deriving DecidableEq

/-- The scalar attributes of a field template.  `name` is `""` when the
JSON template has no name (only constant fields may omit it; neither
packing a constant nor skipping it on decode reads the name). -/

structure LeafAttrs where
  name : String
  length : Option Nat := none
  byteorder : Endian := .big
  signed : Bool := false
  value : Option PValue := none
  trueValue : Option String := none
  falseValue : Option String := none

mutual

/-- One entry of a `select` template's `cases` list: either a named case
(`{"case": [...], "parameters": [...]}`) or a default
(`{"default": [...]}`). -/
inductive SelectCase where
  | scase (names : List String) (parameters : List Template)
  | sdefault (parameters : List Template)

/-- A field template. -/
inductive Template where
  | tBool (a : LeafAttrs)
  | tInt (a : LeafAttrs)
  | tStr (a : LeafAttrs)
  | tHex (a : LeafAttrs)
  | tBytes (a : LeafAttrs)
  | tObject (a : LeafAttrs) (properties : List Template)
  | tArray (a : LeafAttrs) (items : Template)
  | tEnum (etype : String) (a : LeafAttrs)
  | tSelect (var : String) (cases : List SelectCase)
  | tRef (rname : String)

end

/-- The template catalog and enum namespace the codec runs against:
`commands` maps a command name to its optional `parameters` list (a
command template may lack the `parameters` key), `definitions` is the
`ref:` fragment table, and `enums` models the `smarthop.sr920.enums`
module namespace that `getattr` resolves `enum:<Name>` against, as
`name -> [(member name, member value), ...]`. -/

structure Catalog where
  commands : List (String × Option (List Template))
  definitions : List (String × List Template)
  enums : List (String × List (String × Nat))

def lookupDefinition (env : Catalog) (n : String) : Option (List Template) :=
  (env.definitions.find? fun p => p.1 == n).map (·.2)

def lookupEnum (env : Catalog) (n : String) : Option (List (String × Nat)) :=
  (env.enums.find? fun p => p.1 == n).map (·.2)

/-- Python `EnumType(v)`: the first member with the given value (later
equal values are aliases of the first). -/

def enumMemberOfValue (members : List (String × Nat)) (v : Nat) :
    Option String :=
  (members.find? fun m => m.2 == v).map (·.1)

/-- The string a parameter value contributes to `select` case matching:
`param_case.name` for an enum member, the string itself for a string;
any other value compares unequal to every (string) case name, which is
modelled as `none`. -/

def caseNameOf : PValue → Option String
  | .vEnum _ ename _ => some ename
  | .vStr s => some s
  | _ => none

/-- The `cases` scan of `_pack_parameters` / `_unpack_parameters`: walk
the list remembering the last `default` seen; the first matching named
case wins and discards any pending default; with no match the pending
default (if any) is used. -/

def resolveCases (cn : Option String) (dflt : Option (List Template)) :
    List SelectCase → Option (List Template)
  | [] => dflt
  | .sdefault ps :: rest => resolveCases cn (some ps) rest
  | .scase names ps :: rest =>
    if (match cn with | some s => names.contains s | none => false) then
      some ps
    else resolveCases cn dflt rest

/-- `template["items"]["name"]`: the name of an array's item template
(`none` models the `KeyError` on a template kind that has no name). -/

def itemName : Template → Option String
  | .tBool a | .tInt a | .tStr a | .tHex a | .tBytes a => some a.name
  | .tObject a _ => some a.name
  | .tArray a _ => some a.name
  | .tEnum _ a => some a.name
  | .tSelect _ _ | .tRef _ => none

/-! ## Machine integers -/

/-- Python `int.to_bytes(l, byteorder, signed=s)`: range-checked
two\'s-complement encoding (`none` models `OverflowError`). -/

def intToBytes (v : Int) (l : Nat) (e : Endian) (signed : Bool) :
    Option (List Nat) :=
  if (if signed then -((256 : Int) ^ l / 2) else 0) ≤ v ∧
      v < (if signed then (256 : Int) ^ l / 2 else (256 : Int) ^ l) then
    match e with
    | .big => some (natToBE (v % (256 : Int) ^ l).toNat l)
    | .little => some ((natToBE (v % (256 : Int) ^ l).toNat l).reverse)
  else none

/-- Python `int.from_bytes(bs, "big", signed=s)`. -/

def bytesToInt (bs : List Nat) (signed : Bool) : Int :=
  if signed ∧ 2 * beNat bs ≥ 256 ^ bs.length then
    (beNat bs : Int) - (256 : Int) ^ bs.length
  else (beNat bs : Int)

/-- The value a parameter contributes to `int.to_bytes` in the `bool` and
`int` branches of `_pack_parameters`: Python `bool` is an `int`. -/

def pvToInt : PValue → Option Int
  | .vBool b => some (if b then 1 else 0)
  | .vInt i => some i
  | _ => none

/-! ## The codec: `_pack_parameters` and `_unpack_parameters` -/

/-- The scalar attributes of a template node (the dummy value for
`select` / `ref` nodes is never read: those nodes are dispatched before
any attribute access, as in the source). -/

def attrsOf : Template → LeafAttrs
  | .tBool a | .tInt a | .tStr a | .tHex a | .tBytes a => a
  | .tObject a _ => a
  | .tArray a _ => a
  | .tEnum _ a => a
  | .tSelect _ _ | .tRef _ => ⟨"", none, .big, false, none, none, none⟩

/-- Python truthiness of a parameter value (`if param_value:`). -/

def truthy : PValue → Bool
  | .vBool b => b
  | .vInt i => i != 0
  | .vStr s => !s.data.isEmpty
  | .vHex s => !s.data.isEmpty
  | .vBytes l => !l.isEmpty
  | .vObject l => !l.isEmpty
  | .vArray l => !l.isEmpty
  | .vEnum _ _ _ => true

/-- Sequential `Option`-valued concatenation, the shape of the
`for item in param_value:` encode loop. -/

def optionConcatMap (f : α → Option (List β)) : List α → Option (List β)
  | [] => some []
  | a :: as =>
    match f a with
    | none => none
    | some bs =>
      match optionConcatMap f as with
      | none => none
      | some rest => some (bs ++ rest)

/-- `SR920Command._pack_parameters`: encode a parameter dict against a
template list.  `none` models a raised exception (missing parameter,
unresolved select variable or reference, out-of-range `to_bytes`,
non-ASCII string, malformed hex string, or a value of the wrong Python
type for the field).  Fuel bounds the recursion depth. -/

def packParameters (env : Catalog) : Nat → Params → List Template → Option (List Nat)
  | 0, _, _ => none
  | _ + 1, _, [] => some []
  | n + 1, parameters, t :: ts =>
    let head : Option (List Nat) :=
      match t with
      | .tSelect var cases =>
        match dictLookup parameters var with
        | none => none
        | some pv =>
          match resolveCases (caseNameOf pv) none cases with
          | some branch => packParameters env n parameters branch
          | none => some []
      | .tRef rname =>
        match lookupDefinition env rname with
        | none => none
        | some frag => packParameters env n parameters frag
      | _ =>
        match (match (attrsOf t).value with
               | some v => some v
               | none => dictLookup parameters (attrsOf t).name) with
        | none => none
        | some pv =>
          match t with
          | .tBool a =>
            match (if truthy pv then a.trueValue else a.falseValue) with
            | some s =>
              match parseHex s with
              | some x => intToBytes (x : Int) (a.length.getD 1) a.byteorder false
              | none => none
            | none =>
              match pvToInt pv with
              | some i => intToBytes i (a.length.getD 1) a.byteorder false
              | none => none
          | .tInt a =>
            match pvToInt pv with
            | some i => intToBytes i (a.length.getD 1) a.byteorder a.signed
            | none => none
          | .tStr a =>
            match pv with
            | .vStr s =>
              if s.data.all (fun c => c.toNat < 128) then
                some (match a.byteorder with
                  | .big => s.data.map Char.toNat
                  | .little => (s.data.map Char.toNat).reverse)
              else none
            | _ => none
          | .tHex a =>
            match pv with
            | .vHex s =>
              match parseHex s with
              | some x => intToBytes (x : Int) (a.length.getD 1) a.byteorder false
              | none => none
            | _ => none
          | .tBytes _ =>
            match pv with
            | .vBytes l => if l.all (fun b => b < 256) then some l else none
            | _ => none
          | .tObject _ props =>
            match pv with
            | .vObject kvs => packParameters env n kvs props
            | _ => none
          | .tArray _ items =>
            match pv with
            | .vArray elems =>
              match itemName items with
              | none => none
              | some nm =>
                optionConcatMap
                  (fun e => packParameters env n [(nm, e)] [items]) elems
            | _ => none
          | .tEnum _ a =>
            match pv with
            | .vEnum _ _ v => intToBytes (v : Int) (a.length.getD 1) a.byteorder false
            | _ => none
          | .tSelect _ _ | .tRef _ => none
    match head with
    | none => none
    | some bs =>
      match packParameters env n parameters ts with
      | none => none
      | some rest => some (bs ++ rest)

/-- `while param_bytes:` — a sliced byte buffer (or Python `None`) is
truthy exactly when it is a nonempty byte string. -/

def truthyBytes : Option (List Nat) → Bool
  | some (_ :: _) => true
  | _ => false

/-- Length of a possibly-`None` byte buffer (used only as an iteration
budget for the decode loop of `array` fields). -/

def lengthBytes : Option (List Nat) → Nat
  | some l => l.length
  | none => 0

/-- The `while param_bytes:` decode loop of `array` fields: repeatedly
run `step` (one `_unpack_parameters({}, param_bytes, [items])` call) and
collect `params.values()`.  The budget only bounds the iteration count;
exhausting it models the loop diverging (an iteration that consumes
nothing). -/

def whileUnpack (step : Option (List Nat) → Option (Params × Option (List Nat))) :
    Nat → Option (List Nat) → Option (List PValue)
  | 0, _ => none
  | b + 1, pb =>
    if truthyBytes pb then
      match step pb with
      | none => none
      | some (ps, pb2) =>
        match whileUnpack step b pb2 with
        | none => none
        | some rest => some (ps.map (·.2) ++ rest)
    else some []

/-- `SR920Command._unpack_parameters`: decode a byte buffer against a
template list, threading the accumulated parameter dict and the
remaining data exactly as the source does (including the early `break`
on an exhausted buffer, the constant-value skip, and the `object` branch
overwriting the outer remaining-data variable with the leftover of its
nested parse).  `data = none` models Python `None`; `none` as overall
result models a raised exception. -/

def unpackParameters (env : Catalog) :
    Nat → Params → Option (List Nat) → List Template →
    Option (Params × Option (List Nat))
  | 0, _, _, _ => none
  | _ + 1, parameters, data, [] => some (parameters, data)
  | n + 1, parameters, data, t :: ts =>
    match t with
    | .tSelect var cases =>
      match dictLookup parameters var with
      | none => none
      | some pv =>
        match resolveCases (caseNameOf pv) none cases with
        | some branch =>
          match unpackParameters env n parameters data branch with
          | none => none
          | some (ps, d) => unpackParameters env n ps d ts
        | none => unpackParameters env n parameters data ts
    | .tRef rname =>
      match lookupDefinition env rname with
      | none => none
      | some frag =>
        match unpackParameters env n parameters data frag with
        | none => none
        | some (ps, d) => unpackParameters env n ps d ts
    | _ =>
      let sliced : Option (Option (List Nat) × Option (List Nat)) :=
        match (attrsOf t).length with
        | some L =>
          match data with
          | none => none
          | some d => some (some (d.take L), some (d.drop L))
        | none => some (data, none)
      match sliced with
      | none => none
      | some (pb, data2) =>
        if !truthyBytes pb &&
            !(match t with | .tArray _ _ | .tObject _ _ => true | _ => false) then
          some (parameters, data2)
        else if (attrsOf t).value.isSome then
          unpackParameters env n parameters data2 ts
        else
          let pb2 := if (attrsOf t).byteorder = .little then pb.map List.reverse else pb
          match t with
          | .tBool a =>
            match pb2 with
            | none => none
            | some bs =>
              let bs2 :=
                if (match a.trueValue with
                    | some tv => bytesToHex bs == tv
                    | none => false) then [1]
                else if (match a.falseValue with
                    | some fv => bytesToHex bs == fv
                    | none => false) then [0]
                else bs
              unpackParameters env n
                (dictInsert parameters a.name (.vBool (beNat bs2 != 0))) data2 ts
          | .tInt a =>
            match pb2 with
            | none => none
            | some bs =>
              unpackParameters env n
                (dictInsert parameters a.name (.vInt (bytesToInt bs a.signed))) data2 ts
          | .tStr a =>
            match pb2 with
            | none => none
            | some bs =>
              if bs.all (fun b => b < 128) then
                unpackParameters env n
                  (dictInsert parameters a.name (.vStr ⟨bs.map Char.ofNat⟩)) data2 ts
              else none
          | .tHex a =>
            match pb2 with
            | none => none
            | some bs =>
              unpackParameters env n
                (dictInsert parameters a.name (.vHex (bytesToHex bs))) data2 ts
          | .tBytes a =>
            match pb2 with
            | none => none
            | some bs =>
              unpackParameters env n
                (dictInsert parameters a.name (.vBytes bs)) data2 ts
          | .tObject a props =>
            match unpackParameters env n [] pb2 props with
            | none => none
            | some (nested, d3) =>
              unpackParameters env n
                (dictInsert parameters a.name (.vObject nested)) d3 ts
          | .tEnum etype a =>
            match pb2 with
            | none => none
            | some bs =>
              match lookupEnum env etype with
              | none => none
              | some members =>
                match enumMemberOfValue members (beNat bs) with
                | none => none
                | some nm =>
                  unpackParameters env n
                    (dictInsert parameters a.name (.vEnum etype nm (beNat bs))) data2 ts
          | .tArray a items =>
            match whileUnpack (fun pb0 => unpackParameters env n [] pb0 [items])
                (lengthBytes pb2 + 1) pb2 with
            | none => none
            | some elems =>
              unpackParameters env n
                (dictInsert parameters a.name (.vArray elems)) data2 ts
          | .tSelect _ _ | .tRef _ => none

/-! ## Well-formed templates and fitting parameter dicts

`commands.json` itself is not part of the staged sources, so "template in
the catalog" is modelled from the specification: `wfTemplates` is the
schema class of §3/§4.1 of the spec restricted to the shapes under which
the codec is a bijection — every consuming field carries an explicit
positive `length` except that the final top-level field may be an
unsized `str` / `bytes` / `array` (the spec's "consume all remaining
bytes" trailing fields); `object` fields are unsized with sized
properties; `bool` wire overrides are canonical lowercase hex of the
field width and distinguish true from false; `select` variables are
decoded before use.  `fitsTemplates` says a parameter dict supplies
exactly the non-constant fields the template requires, in template
order, with values of the declared type and width. -/

/-- `s` is the canonical (lowercase, zero-padded) hex spelling of a value
that fits in `L` bytes: exactly what `bytes.hex()` of its encoding
produces. -/

def canonHexB (s : String) (L : Nat) : Bool :=
  match parseHex s with
  | some v => decide (v < 256 ^ L) && (bytesToHex (natToBE v L) == s)
  | none => false

/-- The two wire patterns of a `bool` field are well formed and distinct:
present overrides are canonical hex of the field width, and the encoded
true value differs from the encoded false value. -/

def boolValsOk (a : LeafAttrs) (L : Nat) : Bool :=
  (match a.trueValue with | some s => canonHexB s L | none => true) &&
  (match a.falseValue with | some s => canonHexB s L | none => true) &&
  (match (match a.trueValue with | some s => parseHex s | none => some 1),
         (match a.falseValue with | some s => parseHex s | none => some 0) with
   | some x, some y => decide (x ≠ y) && decide (x < 256 ^ L) && decide (y < 256 ^ L)
   | _, _ => false)

/-- An array item template always encodes to at least one byte (the
decode loop must consume something each iteration). -/

def itemMin1 (env : Catalog) : Nat → Template → Bool
  | 0, _ => false
  | n + 1, t =>
    match t with
    | .tBool _ | .tInt _ | .tHex _ | .tEnum _ _ => true
    | .tObject _ props => props.any fun p => itemMin1 env n p
    | _ => false

/-- Well-formedness of a template list (see the section comment).  With
`flag = true` the final template may be an unsized trailing field;
nested template lists (object properties, select branches, referenced
fragments, array items) are checked with `flag = false`. -/

def wfTemplates (env : Catalog) (flag : Bool) : Nat → List Template → Bool
  | 0, _ => false
  | _ + 1, [] => true
  | n + 1, t :: ts =>
    (match t with
     | .tBool a =>
       (match a.length with | some L => decide (0 < L) | none => false) &&
       boolValsOk a (a.length.getD 1)
     | .tInt a =>
       match a.length with | some L => decide (0 < L) | none => false
     | .tStr a =>
       (match a.length with
        | some L => decide (0 < L)
        | none => ts.isEmpty && flag && a.value.isNone) &&
       (match a.value, a.length with
        | some (.vStr s), some L => s.data.length == L
        | _, _ => true)
     | .tHex a =>
       match a.length with | some L => decide (0 < L) | none => false
     | .tBytes a =>
       decide (a.byteorder = .big) &&
       (match a.length with
        | some L => decide (0 < L)
        | none => ts.isEmpty && flag && a.value.isNone) &&
       (match a.value, a.length with
        | some (.vBytes l), some L => l.length == L
        | _, _ => true)
     | .tObject a props =>
       a.length.isNone && decide (a.byteorder = .big) && a.value.isNone &&
       wfTemplates env false n props
     | .tArray a items =>
       ts.isEmpty && flag && a.length.isNone && decide (a.byteorder = .big) &&
       a.value.isNone && (itemName items).isSome &&
       wfTemplates env false n [items] && itemMin1 env n items
     | .tEnum etype a =>
       (match a.length with | some L => decide (0 < L) | none => false) &&
       (lookupEnum env etype).isSome
     | .tSelect _ cases =>
       cases.all fun c =>
         match c with
         | .scase _ ps => wfTemplates env false n ps
         | .sdefault ps => wfTemplates env false n ps
     | .tRef rname =>
       match lookupDefinition env rname with
       | some frag => wfTemplates env false n frag
       | none => false) &&
    wfTemplates env flag n ts

/-- `fitsTemplates env n params i ts = some j`: the dict entries at
positions `i, …, j-1` of `params` are exactly, in order, the
non-constant fields `ts` requires, with values of the declared type and
width (select variables resolve through the already-consumed prefix, as
decode sees them). -/

def fitsTemplates (env : Catalog) : Nat → Params → Nat → List Template → Option Nat
  | 0, _, _, _ => none
  | _ + 1, _, i, [] => some i
  | n + 1, params, i, t :: ts =>
    let step : Option Nat :=
      match t with
      | .tSelect var cases =>
        match dictLookup (params.take i) var with
        | none => none
        | some pv =>
          match resolveCases (caseNameOf pv) none cases with
          | some branch => fitsTemplates env n params i branch
          | none => some i
      | .tRef rname =>
        match lookupDefinition env rname with
        | none => none
        | some frag => fitsTemplates env n params i frag
      | _ =>
        if (attrsOf t).value.isSome then some i
        else
          match params.get? i with
          | none => none
          | some (k, v) =>
            if k == (attrsOf t).name &&
               (match t, v with
                | .tBool _, .vBool _ => true
                | .tInt a, .vInt x =>
                  (intToBytes x (a.length.getD 1) a.byteorder a.signed).isSome
                | .tStr a, .vStr s =>
                  s.data.all (fun c => c.toNat < 128) && !s.data.isEmpty &&
                  (match a.length with
                   | some L => s.data.length == L
                   | none => true)
                | .tHex a, .vHex s => canonHexB s (a.length.getD 1)
                | .tBytes a, .vBytes l =>
                  l.all (fun b => b < 256) &&
                  (match a.length with
                   | some L => l.length == L
                   | none => !l.isEmpty)
                | .tObject _ props, .vObject kvs =>
                  keysNodupB kvs &&
                  (fitsTemplates env n kvs 0 props == some kvs.length)
                | .tArray _ items, .vArray elems =>
                  (match itemName items with
                   | some nm =>
                     elems.all fun e =>
                       fitsTemplates env n [(nm, e)] 0 [items] == some 1
                   | none => false)
                | .tEnum etype a, .vEnum etype2 nm x =>
                  etype2 == etype && decide (x < 256 ^ (a.length.getD 1)) &&
                  (match lookupEnum env etype with
                   | some members => enumMemberOfValue members x == some nm
                   | none => false)
                | _, _ => false) then
              some (i + 1)
            else none
    match step with
    | none => none
    | some j => fitsTemplates env n params j ts

/-! ## Equality of parameter values (Python `==`) -/

mutual

/-- Python `==` on parameter values (dicts compare by key/value content;
this model compares association lists literally, which agrees with
Python on dicts in insertion order). -/
def PValue.beq : PValue → PValue → Bool
  | .vBool a, .vBool b => a == b
  | .vInt a, .vInt b => a == b
  | .vStr a, .vStr b => a == b
  | .vHex a, .vHex b => a == b
  | .vBytes a, .vBytes b => a == b
  | .vObject a, .vObject b => beqParams a b
  | .vArray a, .vArray b => beqValues a b
  | .vEnum t1 n1 v1, .vEnum t2 n2 v2 => t1 == t2 && n1 == n2 && v1 == v2
  | _, _ => false

def beqParams : List (String × PValue) → List (String × PValue) → Bool
  | [], [] => true
  | (k1, v1) :: r1, (k2, v2) :: r2 => k1 == k2 && PValue.beq v1 v2 && beqParams r1 r2
  | _, _ => false

def beqValues : List PValue → List PValue → Bool
  | [], [] => true
  | v1 :: r1, v2 :: r2 => PValue.beq v1 v2 && beqValues r1 r2
  | _, _ => false

end

/-- The head step of `_unpack_parameters` for one template, factored out
of `unpackParameters` (identical text; `unpackParameters_cons` states the
factoring). -/

def unpackStep (env : Catalog) (n : Nat) (parameters : Params)
    (data : Option (List Nat)) (t : Template) (ts : List Template) :
    Option (Params × Option (List Nat)) :=
  match t with
  | .tSelect var cases =>
    match dictLookup parameters var with
    | none => none
    | some pv =>
      match resolveCases (caseNameOf pv) none cases with
      | some branch =>
        match unpackParameters env n parameters data branch with
        | none => none
        | some (ps, d) => unpackParameters env n ps d ts
      | none => unpackParameters env n parameters data ts
  | .tRef rname =>
    match lookupDefinition env rname with
    | none => none
    | some frag =>
      match unpackParameters env n parameters data frag with
      | none => none
      | some (ps, d) => unpackParameters env n ps d ts
  | _ =>
    let sliced : Option (Option (List Nat) × Option (List Nat)) :=
      match (attrsOf t).length with
      | some L =>
        match data with
        | none => none
        | some d => some (some (d.take L), some (d.drop L))
      | none => some (data, none)
    match sliced with
    | none => none
    | some (pb, data2) =>
      if !truthyBytes pb &&
          !(match t with | .tArray _ _ | .tObject _ _ => true | _ => false) then
        some (parameters, data2)
      else if (attrsOf t).value.isSome then
        unpackParameters env n parameters data2 ts
      else
        let pb2 := if (attrsOf t).byteorder = .little then pb.map List.reverse else pb
        match t with
        | .tBool a =>
          match pb2 with
          | none => none
          | some bs =>
            let bs2 :=
              if (match a.trueValue with
                  | some tv => bytesToHex bs == tv
                  | none => false) then [1]
              else if (match a.falseValue with
                  | some fv => bytesToHex bs == fv
                  | none => false) then [0]
              else bs
            unpackParameters env n
              (dictInsert parameters a.name (.vBool (beNat bs2 != 0))) data2 ts
        | .tInt a =>
          match pb2 with
          | none => none
          | some bs =>
            unpackParameters env n
              (dictInsert parameters a.name (.vInt (bytesToInt bs a.signed))) data2 ts
        | .tStr a =>
          match pb2 with
          | none => none
          | some bs =>
            if bs.all (fun b => b < 128) then
              unpackParameters env n
                (dictInsert parameters a.name (.vStr ⟨bs.map Char.ofNat⟩)) data2 ts
            else none
        | .tHex a =>
          match pb2 with
          | none => none
          | some bs =>
            unpackParameters env n
              (dictInsert parameters a.name (.vHex (bytesToHex bs))) data2 ts
        | .tBytes a =>
          match pb2 with
          | none => none
          | some bs =>
            unpackParameters env n
              (dictInsert parameters a.name (.vBytes bs)) data2 ts
        | .tObject a props =>
          match unpackParameters env n [] pb2 props with
          | none => none
          | some (nested, d3) =>
            unpackParameters env n
              (dictInsert parameters a.name (.vObject nested)) d3 ts
        | .tEnum etype a =>
          match pb2 with
          | none => none
          | some bs =>
            match lookupEnum env etype with
            | none => none
            | some members =>
              match enumMemberOfValue members (beNat bs) with
              | none => none
              | some nm =>
                unpackParameters env n
                  (dictInsert parameters a.name (.vEnum etype nm (beNat bs))) data2 ts
        | .tArray a items =>
          match whileUnpack (fun pb0 => unpackParameters env n [] pb0 [items])
              (lengthBytes pb2 + 1) pb2 with
          | none => none
          | some elems =>
            unpackParameters env n
              (dictInsert parameters a.name (.vArray elems)) data2 ts
        | .tSelect _ _ | .tRef _ => none

/-- The head encoding of `_pack_parameters` for one template, factored
out of `packParameters` (identical text; `packParameters_cons` states the
factoring). -/

def packHead (env : Catalog) (n : Nat) (parameters : Params) (t : Template) :
    Option (List Nat) :=
  match t with
  | .tSelect var cases =>
    match dictLookup parameters var with
    | none => none
    | some pv =>
      match resolveCases (caseNameOf pv) none cases with
      | some branch => packParameters env n parameters branch
      | none => some []
  | .tRef rname =>
    match lookupDefinition env rname with
    | none => none
    | some frag => packParameters env n parameters frag
  | _ =>
    match (match (attrsOf t).value with
           | some v => some v
           | none => dictLookup parameters (attrsOf t).name) with
    | none => none
    | some pv =>
      match t with
      | .tBool a =>
        match (if truthy pv then a.trueValue else a.falseValue) with
        | some s =>
          match parseHex s with
          | some x => intToBytes (x : Int) (a.length.getD 1) a.byteorder false
          | none => none
        | none =>
          match pvToInt pv with
          | some i => intToBytes i (a.length.getD 1) a.byteorder false
          | none => none
      | .tInt a =>
        match pvToInt pv with
        | some i => intToBytes i (a.length.getD 1) a.byteorder a.signed
        | none => none
      | .tStr a =>
        match pv with
        | .vStr s =>
          if s.data.all (fun c => c.toNat < 128) then
            some (match a.byteorder with
              | .big => s.data.map Char.toNat
              | .little => (s.data.map Char.toNat).reverse)
          else none
        | _ => none
      | .tHex a =>
        match pv with
        | .vHex s =>
          match parseHex s with
          | some x => intToBytes (x : Int) (a.length.getD 1) a.byteorder false
          | none => none
        | _ => none
      | .tBytes _ =>
        match pv with
        | .vBytes l => if l.all (fun b => b < 256) then some l else none
        | _ => none
      | .tObject _ props =>
        match pv with
        | .vObject kvs => packParameters env n kvs props
        | _ => none
      | .tArray _ items =>
        match pv with
        | .vArray elems =>
          match itemName items with
          | none => none
          | some nm =>
            optionConcatMap
              (fun e => packParameters env n [(nm, e)] [items]) elems
        | _ => none
      | .tEnum _ a =>
        match pv with
        | .vEnum _ _ v => intToBytes (v : Int) (a.length.getD 1) a.byteorder false
        | _ => none
      | .tSelect _ _ | .tRef _ => none

/-- The head step of `fitsTemplates` for one template, factored out of
`fitsTemplates` (identical text; `fitsTemplates_cons` states the
factoring). -/

def fitsStep (env : Catalog) (n : Nat) (params : Params) (i : Nat)
    (t : Template) : Option Nat :=
  match t with
  | .tSelect var cases =>
    match dictLookup (params.take i) var with
    | none => none
    | some pv =>
      match resolveCases (caseNameOf pv) none cases with
      | some branch => fitsTemplates env n params i branch
      | none => some i
  | .tRef rname =>
    match lookupDefinition env rname with
    | none => none
    | some frag => fitsTemplates env n params i frag
  | _ =>
    if (attrsOf t).value.isSome then some i
    else
      match params.get? i with
      | none => none
      | some (k, v) =>
        if k == (attrsOf t).name &&
           (match t, v with
            | .tBool _, .vBool _ => true
            | .tInt a, .vInt x =>
              (intToBytes x (a.length.getD 1) a.byteorder a.signed).isSome
            | .tStr a, .vStr s =>
              s.data.all (fun c => c.toNat < 128) && !s.data.isEmpty &&
              (match a.length with
               | some L => s.data.length == L
               | none => true)
            | .tHex a, .vHex s => canonHexB s (a.length.getD 1)
            | .tBytes a, .vBytes l =>
              l.all (fun b => b < 256) &&
              (match a.length with
               | some L => l.length == L
               | none => !l.isEmpty)
            | .tObject _ props, .vObject kvs =>
              keysNodupB kvs &&
              (fitsTemplates env n kvs 0 props == some kvs.length)
            | .tArray _ items, .vArray elems =>
              (match itemName items with
               | some nm =>
                 elems.all fun e =>
                   fitsTemplates env n [(nm, e)] 0 [items] == some 1
               | none => false)
            | .tEnum etype a, .vEnum etype2 nm x =>
              etype2 == etype && decide (x < 256 ^ (a.length.getD 1)) &&
              (match lookupEnum env etype with
               | some members => enumMemberOfValue members x == some nm
               | none => false)
            | _, _ => false) then
          some (i + 1)
        else none

/-! ## The codec round trip

`RoundIH env n` is the induction statement: at fuel `n`, decoding what
`_pack_parameters` encoded (plus any residue `rest`, which must be empty
when the template list is a top-level one that may end in an unsized
trailing field) rebuilds exactly the packed parameter dict and hands the
residue back. -/

def RoundIH (env : Catalog) (n : Nat) : Prop :=
  ∀ {g : Bool} {ts : List Template} {params : Params} {i j : Nat}
    {bs r : List Nat},
    wfTemplates env g n ts = true →
    keysNodupB params = true →
    fitsTemplates env n params i ts = some j →
    packParameters env n params ts = some bs →
    (g = true → r = []) →
    ∃ d, unpackParameters env n (params.take i) (some (bs ++ r)) ts
        = some (params.take j, d) ∧ (g = false → d = some r)

/-! ## Command ids, `to_bytes` and `parse` (`enums.py`, `command.py`) -/

/-- The `SR920CommandId` enum of `enums.py`: mnemonic and value of every
member, in source order. -/

def commandIdTable : List (String × Nat) :=
  [("READ_CONFIG_REQUEST", 0x0780),
   ("READ_CONFIG_RESPONSE", 0x0781),
   ("WRITE_CONFIG_REQUEST", 0x0782),
   ("WRITE_CONFIG_RESPONSE", 0x0783),
   ("SAVE_CONFIG_REQUEST", 0x0784),
   ("SAVE_CONFIG_RESPONSE", 0x0785),
   ("RESET_CONFIG_REQUEST", 0x0786),
   ("RESET_CONFIG_RESPONSE", 0x0787),
   ("SEND_DATA_REQUEST", 0x07A0),
   ("SEND_DATA_RESPONSE", 0x07A1),
   ("DATA_RECEIVED_NOTIFICATION", 0x07A2),
   ("WRITE_RAM_CONFIG_REQUEST", 0x07A3),
   ("WRITE_RAM_CONFIG_RESPONSE", 0x07A4),
   ("READ_RAM_CONFIG_REQUEST", 0x07A5),
   ("READ_RAM_CONFIG_RESPONSE", 0x07A6),
   ("START_NETWORK_REQUEST", 0x07A7),
   ("START_NETWORK_RESPONSE", 0x07A8),
   ("NETWORK_STATE_CHANGED_NOTIFICATION", 0x07A9),
   ("RESET_REQUEST", 0x07F0),
   ("RESET_RESPONSE", 0x07F1),
   ("SET_TIME_REQUEST", 0x07F2),
   ("SET_TIME_RESPONSE", 0x07F3),
   ("GET_TIME_REQUEST", 0x07F4),
   ("GET_TIME_RESPONSE", 0x07F5),
   ("GET_VERSION_REQUEST", 0x07FA),
   ("GET_VERSION_RESPONSE", 0x07FB),
   ("GET_NODE_LIST_REQUEST", 0x0330),
   ("GET_NODE_LIST_RESPONSE", 0x0331),
   ("GET_LINK_LIST_REQUEST", 0x0332),
   ("GET_LINK_LIST_RESPONSE", 0x0333),
   ("GET_ROUTE_REQUEST", 0x0334),
   ("GET_ROUTE_RESPONSE", 0x0335),
   ("MEASURE_RTT_REQUEST", 0x0336),
   ("MEASURE_RTT_RESPONSE", 0x0337),
   ("GET_NEIGHBOR_INFO_REQUEST", 0x0338),
   ("GET_NEIGHBOR_INFO_RESPONSE", 0x0339),
   ("CONTROL_FIXED_ADDRESS_REQUEST", 0x0340),
   ("CONTROL_FIXED_ADDRESS_RESPONSE", 0x0341),
   ("MEASURE_RADIO_STATUS_REQUEST", 0x0342),
   ("MEASURE_RADIO_STATUS_RESPONSE", 0x0343),
   ("UPDATE_FIRMWARE_REQUEST", 0x0742),
   ("UPDATE_FIRMWARE_RESPONSE", 0x0743),
   ("GET_MY_NEIGHBOR_INFO_REQUEST", 0x0744),
   ("GET_MY_NEIGHBOR_INFO_RESPONSE", 0x0745),
   ("GET_NETWORK_ADDRESS_REQUEST", 0x07F6),
   ("GET_NETWORK_ADDRESS_RESPONSE", 0x07F7),
   ("SCAN_CHANNEL_REQUEST", 0x0709),
   ("SCAN_CHANNEL_RESPONSE", 0x070A)]

/-- `SR920CommandId(v)`: the mnemonic of the enum member with value `v`;
`none` models the `ValueError` on an unknown value. -/

def commandIdOfValue (v : Nat) : Option String :=
  (commandIdTable.find? fun p => p.2 == v).map (·.1)

/-- `SR920Command._get_template`: the first entry of
`_templates["commands"]` whose `name` equals the command mnemonic.  The
outer `Option` is the template record itself (`none` models "command
template not found"); the inner one is its `"parameters"` key (`none`
models a template with no `parameters` entry). -/

def lookupCommand (env : Catalog) (nm : String) :
    Option (Option (List Template)) :=
  (env.commands.find? fun p => p.1 == nm).map (·.2)

/-- `SR920Command.to_bytes`: the 2-byte big-endian command id value
followed by the packed parameters when the command's template has a
`parameters` key.  `none` models an exception escaping
`_pack_parameters`. -/

def commandToBytes (env : Catalog) (n : Nat) (nm : String) (v : Nat)
    (params : Params) : Option (List Nat) :=
  match lookupCommand env nm with
  | some (some ts) =>
    match packParameters env n params ts with
    | some pbs => some (natToBE v 2 ++ pbs)
    | none => none
  | _ => some (natToBE v 2)

/-- `SR920Command.parse`: read the 2-byte big-endian command id (raising
`ValueError`, modelled `none`, on an unknown value), slice the payload
(`None` when at most 2 bytes long), and unpack it against the command's
template when one with a `parameters` key exists. -/

def commandParse (env : Catalog) (n : Nat) (data : List Nat) :
    Option (String × Params) :=
  match commandIdOfValue (beNat (data.take 2)) with
  | none => none
  | some nm =>
    let payload : Option (List Nat) :=
      if data.length > 2 then some (data.drop 2) else none
    match lookupCommand env nm with
    | some (some ts) =>
      match unpackParameters env n [] payload ts with
      | some (ps, _) => some (nm, ps)
      | none => none
    | _ => some (nm, [])

/-! ## Byte stuffing and the outbound frame (`protocol.py`) -/

/-- `SR920Protocol._escape`: each `ESC` (`0x7d`) or `SYN` (`0x7e`) byte
becomes `ESC, byte XOR 0x20`; all other bytes pass through. -/

def escape : List Nat → List Nat
  | [] => []
  | b :: rest =>
    if b = 0x7d ∨ b = 0x7e then 0x7d :: (b ^^^ 0x20) :: escape rest
    else b :: escape rest

/-- The state-threaded loop of `SR920Protocol._unescape`: `inEscape`
records that the previous byte was an unconsumed `ESC`. -/

def unescapeAux : Bool → List Nat → List Nat
  | _, [] => []
  | true, b :: rest => (b ^^^ 0x20) :: unescapeAux false rest
  | false, b :: rest =>
    if b = 0x7d then unescapeAux true rest
    else b :: unescapeAux false rest

/-- `SR920Protocol._unescape`. -/

def unescape (data : List Nat) : List Nat :=
  unescapeAux false data

/-- The frame `SR920Protocol._worker_writer` writes for one dequeued
command: `DMY * 7 + SYN`, a second `SYN`, the escaped command bytes, a
closing `SYN`. -/

def writerFrame (commandBytes : List Nat) : List Nat :=
  (List.replicate 7 0xff ++ [0x7e]) ++ [0x7e] ++ escape commandBytes ++ [0x7e]

/-! ## The response buffer and `get_response` (`sr920.py`) -/

/-- A received command as the response machinery sees it: the numeric
command id and the decoded parameter dict. -/

structure Cmd where
  cid : Nat
  params : Params

/-- The candidate scan of `get_response` over `_received_commands`
(source order): the first command whose id equals the expected response
id is accepted unless it carries a `seq_no` parameter different from the
request's; a differing `seq_no` leaves the candidate in place and the
scan continues.  Result: `none` models the `KeyError` on
`request.parameters["seq_no"]` when the request has no `seq_no`;
`some none` is "no match this round"; `some (some (c, buf))` returns
`c` and the buffer with `c` removed. -/

def scanBuffer (reqParams : Params) (rid : Nat) :
    List Cmd → Option (Option (Cmd × List Cmd))
  | [] => some none
  | c :: rest =>
    if c.cid == rid then
      match dictLookup c.params "seq_no" with
      | some resSeq =>
        match dictLookup reqParams "seq_no" with
        | none => none
        | some reqSeq =>
          if PValue.beq reqSeq resSeq then some (some (c, rest))
          else (scanBuffer reqParams rid rest).map
            (Option.map fun p => (p.1, c :: p.2))
      | none => some (some (c, rest))
    else (scanBuffer reqParams rid rest).map
      (Option.map fun p => (p.1, c :: p.2))

/-- One `get_response` attempt after the send: the `while not
event_timeout.wait(0.1)` polling rounds, given the buffer contents
observed at each round until the timer fires.  `none` propagates the
`KeyError`; `some none` is a timeout with no match. -/

def attemptPoll (reqParams : Params) (rid : Nat) :
    List (List Cmd) → Option (Option Cmd)
  | [] => some none
  | buf :: later =>
    match scanBuffer reqParams rid buf with
    | none => none
    | some (some (c, _)) => some (some c)
    | some none => attemptPoll reqParams rid later

/-- `get_response` as a function of the retry counter: attempt `k` sends
the request and polls the rounds `polls k`; a timeout with `retry > 0`
recurses on `retry - 1` at attempt `k + 1`.  Returns the outcome
together with the total number of sends performed; `none` propagates the
`KeyError`. -/

def getResponseModel (reqParams : Params) (rid : Nat)
    (polls : Nat → List (List Cmd)) : Nat → Nat → Option (Option Cmd × Nat)
  | 0, k =>
    match attemptPoll reqParams rid (polls k) with
    | none => none
    | some (some c) => some (some c, 1)
    | some none => some (none, 1)
  | retry + 1, k =>
    match attemptPoll reqParams rid (polls k) with
    | none => none
    | some (some c) => some (some c, 1)
    | some none =>
      match getResponseModel reqParams rid polls retry (k + 1) with
      | none => none
      | some (out, s) => some (out, s + 1)

/-! ## Inbound classification (`SR920._on_command_received`) -/

/-- Python `str.endswith`. -/

def strEndsWith (s suffix : String) : Bool :=
  suffix.data.isSuffixOf s.data

/-- `SR920._on_command_received`: a command whose mnemonic ends in
`NOTIFICATION` is handed to the notification handler (second component
`true`) and the pending buffer is untouched; any other command is
appended to the buffer under the lock. -/

def onCommandReceived (buffer : List (String × Params))
    (c : String × Params) : List (String × Params) × Bool :=
  if strEndsWith c.1 "NOTIFICATION" then (buffer, true)
  else (buffer ++ [c], false)

/-! ## Node-list pagination (`SR920.get_node_list`) -/

/-- `SR920.get_node_list` over an abstract exchange: `pages seqNo` is
the `(result, node_list)` of the `GET_NODE_LIST_RESPONSE` obtained for
the request with that `seq_no` (`none` when `get_response` returned
`None`).  `result = 1` triggers the follow-up request with `seq_no + 1`
and the returned list is this page extended with the follow-up's result;
a follow-up returning `None` would crash `node_list.extend(None)`
(`none` here); any result other than `0`/`1` yields `None`.  Fuel bounds
the recursion depth. -/

def getNodeListModel (pages : Nat → Option (Nat × List PValue)) :
    Nat → Nat → Option (Option (List PValue))
  | 0, _ => none
  | fuel + 1, seqNo =>
    match pages seqNo with
    | none => some none
    | some (result, nodeList) =>
      if result = 0 then some (some nodeList)
      else if result = 1 then
        match getNodeListModel pages fuel (seqNo + 1) with
        | none => none
        | some none => none
        | some (some restL) => some (some (nodeList ++ restL))
      else some none

/-! ## Firmware update (`SR920.update`) -/

/-- One `UPDATE_FIRMWARE_REQUEST` sub-command sent by `update`, with the
`seq_no` it carried. -/

inductive UStep where
  | getVersion (seq : Nat)
  | start (seq : Nat)
  | write (seq page frame : Nat)
  | check (seq lastPage : Nat)
  | reset (seq : Nat)
deriving DecidableEq

/-- `response and response.parameters["status"] == 0` for the abstract
response `r` (`none` models an absent response). -/

def statusOk : Option (Nat × List Nat) → Bool
  | some (0, _) => true
  | _ => false

/-- Python string `<=` on ascii strings, as byte-lexicographic order on
the undecoded bytes. -/

def pyLeBytes : List Nat → List Nat → Bool
  | [], _ => true
  | _ :: _, [] => false
  | a :: as, b :: bs =>
    if a < b then true
    else if a = b then pyLeBytes as bs
    else false

/-- `data[i : i + 1024]` chunks of the firmware body, in order.  The
fuel argument only bounds the recursion (`data.length` suffices). -/

def chunks1024 : Nat → List Nat → List (List Nat)
  | 0, _ => []
  | _, [] => []
  | f + 1, l => l.take 1024 :: chunks1024 f (l.drop 1024)

/-- The WRITE loop of `update`: one `WRITE` per 1024-byte frame with
`page_no = frame_total // 64`, `frame_no = frame_total % 64`; an absent
or non-zero-status response aborts immediately.  Returns the trace of
`WRITE` steps, the next `seq_no`, the final `page_no` and whether every
frame succeeded. -/

def writeLoop (env : UStep → Option (Nat × List Nat)) :
    List (List Nat) → Nat → Nat → Nat → List UStep × Nat × Nat × Bool
  | [], _, s, p => ([], s, p, true)
  | _ :: rest, ft, s, p =>
    let page := ft / 64
    let frameNo := ft % 64
    match statusOk (env (UStep.write s page frameNo)) with
    | true =>
      match writeLoop env rest (ft + 1) ((s + 1) % 65536) page with
      | (tr, s2, p2, ok) => (UStep.write s page frameNo :: tr, s2, p2, ok)
    | false => ([UStep.write s page frameNo], (s + 1) % 65536, page, false)

/-- The version pre-check of `SR920.update` (skipped by `force`): an
inner `get_version` whose absent reply, non-zero status or empty
version string aborts, and the `version <= version_current` comparison
(Python string order on the decoded ascii bytes).  Returns the steps
sent and the next `seq_no`, or `none` when `update` returns `False`
here. -/

def updatePre (force : Bool) (version : List Nat)
    (env : UStep → Option (Nat × List Nat)) : Option (List UStep × Nat) :=
  if force then some ([], 0)
  else
    match env (UStep.getVersion 0) with
    | some (0, vcur) =>
      if vcur.isEmpty then none
      else if pyLeBytes version vcur then none
      else some ([UStep.getVersion 0], 1)
    | _ => none

/-- The tail of `SR920.update` from the `START` sub-command on: `START`,
the `WRITE` loop, `CHECK` with the last page number, `RESET`, and the
confirming `GET_VERSION`; each absent or non-zero-status response
returns `False` at once.  Returns the ordered steps sent from `START`
on, and the boolean `update` returns. -/

def updateFromStart (env : UStep → Option (Nat × List Nat))
    (data version : List Nat) (s1 : Nat) : List UStep × Bool :=
  if statusOk (env (UStep.start s1)) then
    match writeLoop env (chunks1024 (data.length + 1) data) 0
        ((s1 + 1) % 65536) 0 with
    | (trW, s2, lastPage, okW) =>
      if okW then
        if statusOk (env (UStep.check s2 lastPage)) then
          if statusOk (env (UStep.reset ((s2 + 1) % 65536))) then
            (UStep.start s1 :: trW ++
               [UStep.check s2 lastPage, UStep.reset ((s2 + 1) % 65536),
                UStep.getVersion (((s2 + 1) % 65536 + 1) % 65536)],
             match env (UStep.getVersion (((s2 + 1) % 65536 + 1) % 65536)) with
             | some (0, vnew) => !vnew.isEmpty && (version == vnew)
             | _ => false)
          else
            (UStep.start s1 :: trW ++
               [UStep.check s2 lastPage, UStep.reset ((s2 + 1) % 65536)],
             false)
        else (UStep.start s1 :: trW ++ [UStep.check s2 lastPage], false)
      else (UStep.start s1 :: trW, false)
  else ([UStep.start s1], false)

/-- `SR920.update` as a trace of the `UPDATE_FIRMWARE_REQUEST`
sub-commands it sends, against an abstract response environment `env`
(status and, for `GET_VERSION`, the version bytes of the reply).  The
`seq_no` counter starts at `-1` and each sub-command uses
`(seq + 1) % 65536`; a firmware shorter than 16 bytes fails before any
send.  Returns the ordered trace and the boolean `update` returns. -/

def updateModel (force : Bool) (fw : List Nat)
    (env : UStep → Option (Nat × List Nat)) : List UStep × Bool :=
  if fw.length < 16 then ([], false)
  else
    match updatePre force (fw.drop (fw.length - 12)) env with
    | none => (if force then [] else [UStep.getVersion 0], false)
    | some (tr0, s1) =>
      match updateFromStart env (fw.take (fw.length - 16))
          (fw.drop (fw.length - 12)) s1 with
      | (tr1, ok) => (tr0 ++ tr1, ok)

/-! ## Demo catalogs for concrete evaluations -/

/-- The `READ_CONFIG_REQUEST` entry of the command catalog (one
`enum:SR920ConfigId` field of one byte), with the `TX_POWER` member of
`SR920ConfigId` (`enums.py`). -/

def catalogReadConfig : Catalog :=
  { commands := [("READ_CONFIG_REQUEST",
      some [Template.tEnum "SR920ConfigId"
        { name := "config_id", length := some 1, byteorder := .big,
          signed := false, value := none, trueValue := none,
          falseValue := none }])],
    definitions := [],
    enums := [("SR920ConfigId", [("TX_POWER", 2)])] }

/-- The parameter dict `{"config_id": SR920ConfigId.TX_POWER}`. -/

def paramsReadConfig : Params :=
  [("config_id", PValue.vEnum "SR920ConfigId" "TX_POWER" 2)]

/-- An empty command catalog. -/

def catalogEmpty : Catalog :=
  { commands := [], definitions := [], enums := [] }

/-! ## C5: the response matching rule -/

/-- The acceptance condition stated by the specification: the candidate
carries the expected response id and, whenever it has a `seq_no`
parameter, that value equals the request's. -/

def matchesResponse (reqSeq : PValue) (rid : Nat) (c : Cmd) : Prop :=
  c.cid = rid ∧
    ∀ s, dictLookup c.params "seq_no" = some s → PValue.beq reqSeq s = true

/-- A two-page node-list exchange: `seq_no = 1` answers `result = 1`
with one node, `seq_no = 2` answers the terminal `result = 0`. -/

def pagesDemo : Nat → Option (Nat × List PValue) :=
  fun k =>
    if k = 1 then some (1, [PValue.vInt 10])
    else if k = 2 then some (0, [PValue.vInt 20])
    else none

/-- The abort-ordering property of the specification, over a trace of
sent sub-commands and the returned boolean: a failed `START` in the
trace means no `WRITE` was ever sent and the result is `False`; a
failed `WRITE` or `CHECK` in the trace means no `RESET` was ever sent
and the result is `False`. -/

def AbortProps (env : UStep → Option (Nat × List Nat))
    (tr : List UStep) (ok : Bool) : Prop :=
  (∀ s, UStep.start s ∈ tr → statusOk (env (UStep.start s)) = false →
    (∀ a b c, UStep.write a b c ∉ tr) ∧ ok = false) ∧
  (∀ s p f, UStep.write s p f ∈ tr →
    statusOk (env (UStep.write s p f)) = false →
    (∀ q, UStep.reset q ∉ tr) ∧ ok = false) ∧
  (∀ s p, UStep.check s p ∈ tr → statusOk (env (UStep.check s p)) = false →
    (∀ q, UStep.reset q ∉ tr) ∧ ok = false)

theorem natToBE_length (v l : Nat) : (natToBE v l).length = l := by
  induction l generalizing v with
  | zero => rfl
  | succ l ih => simp [natToBE, ih]

theorem beNat_append_single (xs : List Nat) (b : Nat) :
    beNat (xs ++ [b]) = 256 * beNat xs + b := by
  simp [beNat, List.foldl_append, Nat.mul_comm]

theorem beNat_natToBE {v l : Nat} (h : v < 256 ^ l) :
    beNat (natToBE v l) = v := by
  induction l generalizing v with
  | zero =>
    simp [Nat.pow_zero] at h
    simp [natToBE, beNat, h]
  | succ l ih =>
    have hdiv : v / 256 < 256 ^ l := by
      rw [Nat.div_lt_iff_lt_mul (by norm_num : 0 < 256)]
      calc v < 256 ^ (l + 1) := h
        _ = 256 ^ l * 256 := by ring
    rw [natToBE, beNat_append_single, ih hdiv]
    omega

theorem natToBE_bytes_lt (v l : Nat) : ∀ b ∈ natToBE v l, b < 256 := by
  induction l generalizing v with
  | zero => intro b hb; simp [natToBE] at hb
  | succ l ih =>
    intro b hb
    simp only [natToBE, List.mem_append, List.mem_singleton] at hb
    rcases hb with hb | hb
    · exact ih _ b hb
    · subst hb; exact Nat.mod_lt _ (by norm_num)

theorem natToBE_inj {v w l : Nat} (hv : v < 256 ^ l) (hw : w < 256 ^ l)
    (h : natToBE v l = natToBE w l) : v = w := by
  have := beNat_natToBE hv
  rw [h, beNat_natToBE hw] at this
  omega

theorem toHexDigit_inj :
    ∀ n < 16, ∀ m < 16, toHexDigit n = toHexDigit m → n = m := by decide

theorem bytesToHexChars_inj : ∀ (xs ys : List Nat),
    (∀ b ∈ xs, b < 256) → (∀ b ∈ ys, b < 256) →
    bytesToHexChars xs = bytesToHexChars ys → xs = ys := by
  intro xs
  induction xs with
  | nil =>
    intro ys _ _ h
    cases ys with
    | nil => rfl
    | cons y ys => simp [bytesToHexChars] at h
  | cons x xs ih =>
    intro ys hxs hys h
    cases ys with
    | nil => simp [bytesToHexChars] at h
    | cons y ys =>
      simp only [bytesToHexChars, List.flatMap_cons, List.cons_append,
        List.cons.injEq] at h
      obtain ⟨h1, h2, h3⟩ := h
      have hx : x < 256 := hxs x (by simp)
      have hy : y < 256 := hys y (by simp)
      have e1 : x / 16 = y / 16 :=
        toHexDigit_inj _ (by omega) _ (by omega) h1
      have e2 : x % 16 = y % 16 :=
        toHexDigit_inj _ (Nat.mod_lt _ (by norm_num)) _
          (Nat.mod_lt _ (by norm_num)) h2
      have hxy : x = y := by omega
      have := ih ys (fun b hb => hxs b (by simp [hb]))
        (fun b hb => hys b (by simp [hb])) h3
      rw [hxy, this]

theorem bytesToHex_natToBE_inj {v w l : Nat}
    (hv : v < 256 ^ l) (hw : w < 256 ^ l) (hne : v ≠ w) :
    bytesToHex (natToBE v l) ≠ bytesToHex (natToBE w l) := by
  intro h
  apply hne
  apply natToBE_inj hv hw
  apply bytesToHexChars_inj _ _ (natToBE_bytes_lt v l) (natToBE_bytes_lt w l)
  have : (String.mk (bytesToHexChars (natToBE v l))).data
      = (String.mk (bytesToHexChars (natToBE w l))).data := by
    rw [show String.mk (bytesToHexChars (natToBE v l)) = bytesToHex (natToBE v l) from rfl,
      h]
    rfl
  simpa using this

theorem intToBytes_big_eq {v : Int} {l : Nat} {s : Bool} {bs : List Nat}
    (h : intToBytes v l .big s = some bs) :
    bs = natToBE (v % (256 : Int) ^ l).toNat l ∧
    (if s then -((256 : Int) ^ l / 2) else 0) ≤ v ∧
    v < (if s then (256 : Int) ^ l / 2 else (256 : Int) ^ l) := by
  rcases Bool.eq_false_or_eq_true s with hs | hs <;> subst hs <;>
    unfold intToBytes at h <;>
    simp only [Bool.false_eq_true, if_true, if_false] at h ⊢ <;>
    split at h <;> simp_all

theorem intToBytes_little_eq {v : Int} {l : Nat} {s : Bool} {bs : List Nat}
    (h : intToBytes v l .little s = some bs) :
    bs = (natToBE (v % (256 : Int) ^ l).toNat l).reverse := by
  rcases Bool.eq_false_or_eq_true s with hs | hs <;> subst hs <;>
    unfold intToBytes at h <;>
    simp only [Bool.false_eq_true, if_true, if_false] at h <;>
    split at h <;> simp_all

theorem intToBytes_length {v : Int} {l : Nat} {e : Endian} {s : Bool}
    {bs : List Nat} (h : intToBytes v l e s = some bs) : bs.length = l := by
  cases e
  · rw [(intToBytes_big_eq h).1]
    exact natToBE_length _ _
  · rw [intToBytes_little_eq h]
    simp [natToBE_length]

theorem intToBytes_half {l : Nat} (hl : 0 < l) :
    2 * ((256 : Int) ^ l / 2) = (256 : Int) ^ l := by
  obtain ⟨k, rfl⟩ : ∃ k, l = k + 1 := ⟨l - 1, by omega⟩
  have h : (256 : Int) ^ (k + 1) = 2 * (128 * 256 ^ k) := by ring
  rw [h, Int.mul_ediv_cancel_left _ (by norm_num)]

theorem bytesToInt_intToBytes_big {v : Int} {l : Nat} {s : Bool}
    {bs : List Nat} (h : intToBytes v l .big s = some bs) :
    bytesToInt bs s = v := by
  obtain ⟨hbs, hlo, hhi⟩ := intToBytes_big_eq h
  set m : Int := (256 : Int) ^ l with hm
  have hmpos : (0 : Int) < m := by positivity
  have hmod_nonneg : (0 : Int) ≤ v % m := Int.emod_nonneg v (by omega)
  have hmod_lt : v % m < m := Int.emod_lt_of_pos v hmpos
  have hnat : ((v % m).toNat : Int) = v % m := Int.toNat_of_nonneg hmod_nonneg
  have hlt : (v % m).toNat < 256 ^ l := by
    have hc : ((256 ^ l : Nat) : Int) = m := by rw [hm]; push_cast; ring
    omega
  have hlen : bs.length = l := by rw [hbs]; exact natToBE_length _ _
  have hbe : beNat bs = (v % m).toNat := by rw [hbs]; exact beNat_natToBE hlt
  have hcastN : ((256 ^ l : Nat) : Int) = m := by
    rw [hm]; push_cast; ring
  have hpowN : (256 : Nat) ^ bs.length = 256 ^ l := by rw [hlen]
  have hpowI : (256 : Int) ^ bs.length = m := by rw [hlen, hm]
  rcases Bool.eq_false_or_eq_true s with hs | hs
  · subst hs
    rw [if_pos rfl] at hlo
    rw [if_pos rfl] at hhi
    have hl : 0 < l := by
      by_contra hl0
      have hz : l = 0 := by omega
      subst hz
      simp [hm] at hlo hhi
      omega
    have hhalf : 2 * (m / 2) = m := intToBytes_half hl
    have hcase : v % m = v ∨ v % m = v + m := by
      rcases le_or_lt 0 v with hv | hv
      · left; exact Int.emod_eq_of_lt hv (by omega)
      · right
        have heq : (v + m) % m = v % m := by
          conv_rhs => rw [show v = v + m - m by ring]
          rw [Int.sub_emod, Int.emod_self, sub_zero,
            Int.emod_emod_of_dvd _ (dvd_refl m)]
        rw [← heq]
        exact Int.emod_eq_of_lt (by omega) (by omega)
    unfold bytesToInt
    split <;> rename_i hcond
    · have hx := hcond.2
      rcases hcase with hc | hc <;> omega
    · have hx : ¬(2 * beNat bs ≥ 256 ^ bs.length) := fun hX => hcond ⟨rfl, hX⟩
      rcases hcase with hc | hc <;> omega
  · subst hs
    simp only [Bool.false_eq_true, if_false] at hlo hhi
    have hv : v % m = v := Int.emod_eq_of_lt hlo hhi
    unfold bytesToInt
    split <;> rename_i hcond
    · exact absurd hcond.1 (by simp)
    · omega

/-! ## Dict and prefix lemmas -/

theorem dictLookup_of_get? {params : Params} {i : Nat} {k : String} {v : PValue}
    (hnd : keysNodupB params = true) (hg : params.get? i = some (k, v)) :
    dictLookup params k = some v := by
  induction params generalizing i with
  | nil => simp at hg
  | cons p rest ih =>
    obtain ⟨k0, v0⟩ := p
    simp only [keysNodupB, Bool.and_eq_true, Bool.not_eq_true'] at hnd
    cases i with
    | zero =>
      simp only [List.get?_cons_zero, Option.some.injEq, Prod.mk.injEq] at hg
      simp [dictLookup, List.find?, hg.1, hg.2]
    | succ i =>
      simp only [List.get?_cons_succ] at hg
      have hmem : (k, v) ∈ rest := by
        exact List.get?_mem hg
      have hne : ¬(k0 == k) = true := by
        intro hkk
        have : rest.any (fun p => p.1 == k0) = true :=
          List.any_eq_true.mpr ⟨(k, v), hmem, by
            simp only [beq_iff_eq] at hkk ⊢
            exact hkk.symm⟩
        rw [this] at hnd
        exact absurd hnd.1 (by simp)
      unfold dictLookup
      rw [List.find?]
      simp only [hne]
      exact ih hnd.2 hg

theorem find?_append_left {α : Type} {p : α → Bool} {l1 l2 : List α} {x : α}
    (h : l1.find? p = some x) : (l1 ++ l2).find? p = some x := by
  induction l1 with
  | nil => simp [List.find?] at h
  | cons a rest ih =>
    rw [List.cons_append, List.find?]
    rw [List.find?] at h
    cases ha : p a with
    | true => simpa [ha] using h
    | false =>
      simp only [ha] at h ⊢
      exact ih h

theorem dictLookup_take {params : Params} {i : Nat} {k : String} {pv : PValue}
    (h : dictLookup (params.take i) k = some pv) : dictLookup params k = some pv := by
  unfold dictLookup at h ⊢
  obtain ⟨⟨k0, v0⟩, hf, hv⟩ := Option.map_eq_some'.mp h
  rw [← List.take_append_drop i params]
  rw [find?_append_left hf]
  simpa using hv

theorem take_not_any {params : Params} {i : Nat} {k : String} {v : PValue}
    (hnd : keysNodupB params = true) (hg : params.get? i = some (k, v)) :
    (params.take i).any (fun p => p.1 == k) = false := by
  induction params generalizing i with
  | nil => simp at hg
  | cons p rest ih =>
    obtain ⟨k0, v0⟩ := p
    simp only [keysNodupB, Bool.and_eq_true, Bool.not_eq_true'] at hnd
    cases i with
    | zero => simp
    | succ i =>
      simp only [List.get?_cons_succ] at hg
      have hmem : (k, v) ∈ rest := List.get?_mem hg
      have hne : (k0 == k) = false := by
        cases hkk : k0 == k with
        | false => rfl
        | true =>
          have : rest.any (fun p => p.1 == k0) = true :=
            List.any_eq_true.mpr ⟨(k, v), hmem, by
              simp only [beq_iff_eq] at hkk ⊢
              exact hkk.symm⟩
          rw [this] at hnd
          exact absurd hnd.1 (by simp)
      simp only [List.take_succ_cons, List.any_cons, hne, Bool.false_or]
      exact ih hnd.2 hg

/-- Inserting the `i`-th entry of `params` into the decoded prefix
`params.take i` extends the prefix to `params.take (i + 1)`. -/

theorem dictInsert_take {params : Params} {i : Nat} {k : String} {v : PValue}
    (hnd : keysNodupB params = true) (hg : params.get? i = some (k, v)) :
    dictInsert (params.take i) k v = params.take (i + 1) := by
  unfold dictInsert
  rw [take_not_any hnd hg]
  simp only [Bool.false_eq_true, if_false]
  rw [List.get?_eq_getElem?] at hg
  rw [List.take_succ, hg]
  rfl

/-! ## Encoding helper lemmas -/

theorem intToBytes_ofNat {x l : Nat} (h : x < 256 ^ l) :
    intToBytes (x : Int) l .big false = some (natToBE x l) := by
  have hcast : ((256 ^ l : Nat) : Int) = (256 : Int) ^ l := by push_cast; ring
  have hc1 : (if (false : Bool) = true then -((256 : Int) ^ l / 2) else 0) = 0 := by
    simp
  have hc2 : (if (false : Bool) = true then (256 : Int) ^ l / 2 else (256 : Int) ^ l)
      = (256 : Int) ^ l := by simp
  unfold intToBytes
  rw [hc1, hc2, if_pos ⟨by omega, by omega⟩]
  have hmod : (x : Int) % (256 : Int) ^ l = (x : Int) :=
    Int.emod_eq_of_lt (by omega) (by omega)
  rw [hmod]
  simp

theorem intToBytes_little_to_big {v : Int} {l : Nat} {s : Bool} {bs : List Nat}
    (h : intToBytes v l .little s = some bs) :
    intToBytes v l .big s = some bs.reverse := by
  unfold intToBytes at h ⊢
  by_cases hc : ((if s then -((256 : Int) ^ l / 2) else 0) ≤ v ∧
      v < (if s then (256 : Int) ^ l / 2 else (256 : Int) ^ l))
  · rw [if_pos hc] at h ⊢
    simp only [Option.some.injEq] at h ⊢
    rw [← h]
    simp
  · rw [if_neg hc] at h
    exact absurd h (by simp)

theorem truthyBytes_some {l : List Nat} : truthyBytes (some l) = !l.isEmpty := by
  cases l <;> rfl

theorem take_append_of_length {l1 : List Nat} (l2 : List Nat) {L : Nat}
    (h : l1.length = L) :
    (l1 ++ l2).take L = l1 ∧ (l1 ++ l2).drop L = l2 := by
  subst h
  exact ⟨List.take_left l1 l2, List.drop_left l1 l2⟩

/-! ## Decode step lemmas

One lemma per leaf field type: decoding the bytes that
`_pack_parameters` produced for the field consumes exactly those bytes
and binds exactly the packed parameter value, then continues with the
remaining templates. -/

theorem unpack_step_int {env : Catalog} {n : Nat} {acc : Params} {a : LeafAttrs}
    {i : Int} {L : Nat} {enc tail : List Nat} {ts : List Template}
    (hlen : a.length = some L) (hL : 0 < L) (hval : a.value = none)
    (hpk : intToBytes i L a.byteorder a.signed = some enc) :
    unpackParameters env (n + 1) acc (some (enc ++ tail)) (.tInt a :: ts)
      = unpackParameters env n (dictInsert acc a.name (.vInt i)) (some tail) ts := by
  have hel : enc.length = L := intToBytes_length hpk
  obtain ⟨htake, hdrop⟩ := take_append_of_length tail hel
  have hne : enc ≠ [] := by
    intro h0
    rw [h0] at hel
    simp at hel
    omega
  obtain ⟨b0, enc2, rfl⟩ : ∃ b0 enc2, enc = b0 :: enc2 := by
    cases enc with
    | nil => exact absurd rfl hne
    | cons x xs => exact ⟨x, xs, rfl⟩
  cases hbo : a.byteorder with
  | big =>
    rw [hbo] at hpk
    have hdec := bytesToInt_intToBytes_big hpk
    simp only [unpackParameters, attrsOf, hlen, hval, htake, hdrop, hbo,
      truthyBytes, Bool.not_true, Bool.false_and, Bool.false_eq_true, if_false,
      Option.isSome_none, Option.map_some']
    simp [hdec]
  | little =>
    rw [hbo] at hpk
    have hpk2 := intToBytes_little_to_big hpk
    have hdec := bytesToInt_intToBytes_big hpk2
    rw [List.reverse_cons] at hdec
    simp only [unpackParameters, attrsOf, hlen, hval, htake, hdrop, hbo,
      truthyBytes, Bool.not_true, Bool.false_and, Bool.false_eq_true, if_false,
      Option.isSome_none, Option.map_some']
    simp [hdec]

theorem unpack_step_enum {env : Catalog} {n : Nat} {acc : Params}
    {etype nm : String} {a : LeafAttrs} {x L : Nat}
    {members : List (String × Nat)} {enc tail : List Nat} {ts : List Template}
    (hlen : a.length = some L) (hL : 0 < L) (hval : a.value = none)
    (hx : x < 256 ^ L)
    (hpk : intToBytes (x : Int) L a.byteorder false = some enc)
    (hmem : lookupEnum env etype = some members)
    (hnm : enumMemberOfValue members x = some nm) :
    unpackParameters env (n + 1) acc (some (enc ++ tail)) (.tEnum etype a :: ts)
      = unpackParameters env n (dictInsert acc a.name (.vEnum etype nm x))
          (some tail) ts := by
  have hel : enc.length = L := intToBytes_length hpk
  obtain ⟨htake, hdrop⟩ := take_append_of_length tail hel
  have hne : enc ≠ [] := by
    intro h0
    rw [h0] at hel
    simp at hel
    omega
  obtain ⟨b0, enc2, rfl⟩ : ∃ b0 enc2, enc = b0 :: enc2 := by
    cases enc with
    | nil => exact absurd rfl hne
    | cons u us => exact ⟨u, us, rfl⟩
  cases hbo : a.byteorder with
  | big =>
    rw [hbo] at hpk
    have henc : b0 :: enc2 = natToBE x L := by
      have := intToBytes_ofNat (l := L) hx
      rw [this] at hpk
      exact (Option.some.injEq _ _ ▸ hpk.symm :)
    have hbe : beNat (b0 :: enc2) = x := by rw [henc]; exact beNat_natToBE hx
    simp only [unpackParameters, attrsOf, hlen, hval, htake, hdrop, hbo,
      truthyBytes, Bool.not_true, Bool.false_and, Bool.false_eq_true, if_false,
      Option.isSome_none, Option.map_some']
    simp [hbe, hmem, hnm]
  | little =>
    rw [hbo] at hpk
    have hpk2 := intToBytes_little_to_big hpk
    have henc : (b0 :: enc2).reverse = natToBE x L := by
      have := intToBytes_ofNat (l := L) hx
      rw [this] at hpk2
      exact (Option.some.injEq _ _ ▸ hpk2.symm :)
    have hbe : beNat ((b0 :: enc2).reverse) = x := by rw [henc]; exact beNat_natToBE hx
    rw [List.reverse_cons] at hbe
    simp only [unpackParameters, attrsOf, hlen, hval, htake, hdrop, hbo,
      truthyBytes, Bool.not_true, Bool.false_and, Bool.false_eq_true, if_false,
      Option.isSome_none, Option.map_some']
    simp [hbe, hmem, hnm]

theorem unpack_step_hex {env : Catalog} {n : Nat} {acc : Params} {a : LeafAttrs}
    {s : String} {x L : Nat} {enc tail : List Nat} {ts : List Template}
    (hlen : a.length = some L) (hL : 0 < L) (hval : a.value = none)
    (hx : x < 256 ^ L) (hcanon : bytesToHex (natToBE x L) = s)
    (hpk : intToBytes (x : Int) L a.byteorder false = some enc) :
    unpackParameters env (n + 1) acc (some (enc ++ tail)) (.tHex a :: ts)
      = unpackParameters env n (dictInsert acc a.name (.vHex s)) (some tail) ts := by
  have hel : enc.length = L := intToBytes_length hpk
  obtain ⟨htake, hdrop⟩ := take_append_of_length tail hel
  have hne : enc ≠ [] := by
    intro h0
    rw [h0] at hel
    simp at hel
    omega
  obtain ⟨b0, enc2, rfl⟩ : ∃ b0 enc2, enc = b0 :: enc2 := by
    cases enc with
    | nil => exact absurd rfl hne
    | cons u us => exact ⟨u, us, rfl⟩
  cases hbo : a.byteorder with
  | big =>
    rw [hbo] at hpk
    have henc : b0 :: enc2 = natToBE x L := by
      have := intToBytes_ofNat (l := L) hx
      rw [this] at hpk
      exact (Option.some.injEq _ _ ▸ hpk.symm :)
    simp only [unpackParameters, attrsOf, hlen, hval, htake, hdrop, hbo,
      truthyBytes, Bool.not_true, Bool.false_and, Bool.false_eq_true, if_false,
      Option.isSome_none, Option.map_some']
    simp [henc, hcanon]
  | little =>
    rw [hbo] at hpk
    have hpk2 := intToBytes_little_to_big hpk
    have henc : (b0 :: enc2).reverse = natToBE x L := by
      have := intToBytes_ofNat (l := L) hx
      rw [this] at hpk2
      exact (Option.some.injEq _ _ ▸ hpk2.symm :)
    rw [List.reverse_cons] at henc
    simp only [unpackParameters, attrsOf, hlen, hval, htake, hdrop, hbo,
      truthyBytes, Bool.not_true, Bool.false_and, Bool.false_eq_true, if_false,
      Option.isSome_none, Option.map_some']
    simp [henc, hcanon]

theorem unpack_step_str {env : Catalog} {n : Nat} {acc : Params} {a : LeafAttrs}
    {s : String} {L : Nat} {enc tail : List Nat} {ts : List Template}
    (hlen : a.length = some L) (hL : 0 < L) (hval : a.value = none)
    (hascii : s.data.all (fun c => c.toNat < 128) = true)
    (hsl : s.data.length = L)
    (henc : enc = (match a.byteorder with
      | Endian.big => s.data.map Char.toNat
      | Endian.little => (s.data.map Char.toNat).reverse)) :
    unpackParameters env (n + 1) acc (some (enc ++ tail)) (.tStr a :: ts)
      = unpackParameters env n (dictInsert acc a.name (.vStr s)) (some tail) ts := by
  have hlt : ∀ b ∈ s.data.map Char.toNat, b < 128 := by
    intro b hb
    obtain ⟨c, hc, rfl⟩ := List.mem_map.mp hb
    exact of_decide_eq_true (List.all_eq_true.mp hascii c hc)
  have hback : (s.data.map Char.toNat).map Char.ofNat = s.data := by
    rw [List.map_map]
    have hco : (Char.ofNat ∘ Char.toNat) = id := by
      funext c
      exact Char.ofNat_toNat c
    rw [hco, List.map_id]
  have hallmap : (s.data.map Char.toNat).all (fun b => decide (b < 128)) = true :=
    List.all_eq_true.mpr fun b hb => decide_eq_true (hlt b hb)
  have hel : enc.length = L := by
    rw [henc]
    cases a.byteorder <;> simp [hsl]
  obtain ⟨htake, hdrop⟩ := take_append_of_length tail hel
  have hne : enc ≠ [] := by
    intro h0
    rw [h0] at hel
    simp at hel
    omega
  obtain ⟨b0, enc2, hcons⟩ : ∃ b0 enc2, enc = b0 :: enc2 := by
    cases enc with
    | nil => exact absurd rfl hne
    | cons u us => exact ⟨u, us, rfl⟩
  have hstr : String.mk s.data = s := rfl
  cases hbo : a.byteorder with
  | big =>
    rw [hbo] at henc
    simp only at henc
    rw [hcons] at htake hdrop henc
    simp only [unpackParameters, attrsOf, hlen, hval, hcons, htake, hdrop, hbo,
      truthyBytes, Bool.not_true, Bool.false_and, Bool.false_eq_true, if_false,
      Option.isSome_none, Option.map_some']
    rw [if_neg (by simp : ¬(Endian.big = Endian.little))]
    simp only [henc, hallmap, if_true, hback, hstr]
  | little =>
    rw [hbo] at henc
    simp only at henc
    rw [hcons] at htake hdrop henc
    have hrev : (b0 :: enc2).reverse = s.data.map Char.toNat := by
      rw [henc, List.reverse_reverse]
    simp only [unpackParameters, attrsOf, hlen, hval, hcons, htake, hdrop, hbo,
      truthyBytes, Bool.not_true, Bool.false_and, Bool.false_eq_true, if_false,
      Option.isSome_none, Option.map_some']
    rw [if_pos trivial]
    simp only [Option.map_some', hrev, hallmap, if_true, hback, hstr]

theorem unpack_step_bytes {env : Catalog} {n : Nat} {acc : Params} {a : LeafAttrs}
    {l tail : List Nat} {L : Nat} {ts : List Template}
    (hlen : a.length = some L) (hL : 0 < L) (hval : a.value = none)
    (hbo : a.byteorder = .big) (hlL : l.length = L) :
    unpackParameters env (n + 1) acc (some (l ++ tail)) (.tBytes a :: ts)
      = unpackParameters env n (dictInsert acc a.name (.vBytes l)) (some tail) ts := by
  obtain ⟨htake, hdrop⟩ := take_append_of_length tail hlL
  have hne : l ≠ [] := by
    intro h0
    rw [h0] at hlL
    simp at hlL
    omega
  obtain ⟨b0, l2, rfl⟩ : ∃ b0 l2, l = b0 :: l2 := by
    cases l with
    | nil => exact absurd rfl hne
    | cons u us => exact ⟨u, us, rfl⟩
  simp only [unpackParameters, attrsOf, hlen, hval, htake, hdrop, hbo,
    truthyBytes, Bool.not_true, Bool.false_and, Bool.false_eq_true, if_false,
    Option.isSome_none, Option.map_some']
  simp

/-- Decoding a constant field (the template carries `value`) just advances
past its wire bytes without binding a parameter. -/

theorem unpack_step_const {env : Catalog} {n : Nat} {acc : Params}
    {t : Template} {L : Nat} {enc tail : List Nat} {ts : List Template}
    (hleaf : match t with
      | .tBool _ | .tInt _ | .tStr _ | .tHex _ | .tBytes _ | .tEnum _ _ => True
      | _ => False)
    (hlen : (attrsOf t).length = some L) (hL : 0 < L)
    (hval : (attrsOf t).value.isSome = true) (hel : enc.length = L) :
    unpackParameters env (n + 1) acc (some (enc ++ tail)) (t :: ts)
      = unpackParameters env n acc (some tail) ts := by
  obtain ⟨htake, hdrop⟩ := take_append_of_length tail hel
  have hne : enc ≠ [] := by
    intro h0
    rw [h0] at hel
    simp at hel
    omega
  obtain ⟨b0, enc2, rfl⟩ : ∃ b0 enc2, enc = b0 :: enc2 := by
    cases enc with
    | nil => exact absurd rfl hne
    | cons u us => exact ⟨u, us, rfl⟩
  cases t <;> simp only at hleaf hlen hval <;>
    simp only [unpackParameters, attrsOf] at hlen hval ⊢ <;>
    simp only [hlen, hval, htake, hdrop, truthyBytes, Bool.not_true,
      Bool.false_and, Bool.false_eq_true, if_false, if_true]

theorem boolValsOk_spec {a : LeafAttrs} {L : Nat} (h : boolValsOk a L = true) :
    ∃ vT vF : Nat,
      (match a.trueValue with | some s => parseHex s | none => some 1) = some vT ∧
      (match a.falseValue with | some s => parseHex s | none => some 0) = some vF ∧
      (∀ s, a.trueValue = some s → bytesToHex (natToBE vT L) = s) ∧
      (∀ s, a.falseValue = some s → bytesToHex (natToBE vF L) = s) ∧
      vT < 256 ^ L ∧ vF < 256 ^ L ∧ vT ≠ vF := by
  unfold boolValsOk at h
  simp only [Bool.and_eq_true] at h
  obtain ⟨⟨hT, hF⟩, hD⟩ := h
  cases hTv : a.trueValue with
  | none =>
    simp only [hTv] at hT hD
    cases hFv : a.falseValue with
    | none =>
      simp only [hFv] at hF hD
      simp only [Bool.and_eq_true, decide_eq_true_eq] at hD
      exact ⟨1, 0, by simp [hTv], by simp [hFv], by simp [hTv], by simp [hFv],
        hD.1.2, hD.2, hD.1.1⟩
    | some fs =>
      simp only [hFv] at hF hD
      unfold canonHexB at hF
      cases hpf : parseHex fs with
      | none =>
        simp only [hpf] at hF
        exact absurd hF (by simp)
      | some vF =>
        simp only [hpf] at hF hD
        simp only [Bool.and_eq_true, decide_eq_true_eq, beq_iff_eq] at hF hD
        refine ⟨1, vF, by simp [hTv], by simp [hpf], by simp [hTv], ?_,
          hD.1.2, hD.2, hD.1.1⟩
        intro s hs
        injection hs with h2
        subst h2
        exact hF.2
  | some tvs =>
    simp only [hTv] at hT hD
    unfold canonHexB at hT
    cases hpt : parseHex tvs with
    | none =>
      simp only [hpt] at hT
      exact absurd hT (by simp)
    | some vT =>
      simp only [hpt] at hT hD
      simp only [Bool.and_eq_true, decide_eq_true_eq, beq_iff_eq] at hT
      have hTcan : ∀ s, some tvs = some s → bytesToHex (natToBE vT L) = s := by
        intro s hs
        injection hs with h2
        subst h2
        exact hT.2
      cases hFv : a.falseValue with
      | none =>
        simp only [hFv] at hF hD
        simp only [Bool.and_eq_true, decide_eq_true_eq] at hD
        exact ⟨vT, 0, by simp [hpt], by simp [hFv], hTcan, by simp [hFv],
          hD.1.2, hD.2, hD.1.1⟩
      | some fs =>
        simp only [hFv] at hF hD
        unfold canonHexB at hF
        cases hpf : parseHex fs with
        | none =>
          simp only [hpf] at hF
          exact absurd hF (by simp)
        | some vF =>
          simp only [hpf] at hF hD
          simp only [Bool.and_eq_true, decide_eq_true_eq, beq_iff_eq] at hF hD
          refine ⟨vT, vF, by simp [hpt], by simp [hpf], hTcan, ?_,
            hD.1.2, hD.2, hD.1.1⟩
          intro s hs
          injection hs with h2
          subst h2
          exact hF.2

theorem boolDecodeCore {a : LeafAttrs} {L : Nat} {vT vF : Nat} {b : Bool}
    (hTc : ∀ s, a.trueValue = some s → bytesToHex (natToBE vT L) = s)
    (hFc : ∀ s, a.falseValue = some s → bytesToHex (natToBE vF L) = s)
    (hTlt : vT < 256 ^ L) (hFlt : vF < 256 ^ L) (hne : vT ≠ vF)
    (hT1 : a.trueValue = none → vT = 1) (hF0 : a.falseValue = none → vF = 0) :
    ((beNat (if (match a.trueValue with
               | some tv => bytesToHex (natToBE (if b then vT else vF) L) == tv
               | none => false) then [1]
           else if (match a.falseValue with
               | some fv => bytesToHex (natToBE (if b then vT else vF) L) == fv
               | none => false) then [0]
           else natToBE (if b then vT else vF) L)) != 0) = b := by
  have hinj := bytesToHex_natToBE_inj hTlt hFlt hne
  cases b with
  | true =>
    simp only [if_pos rfl, if_true]
    cases hTv : a.trueValue with
    | some tv =>
      have hct : bytesToHex (natToBE vT L) = tv := hTc tv hTv
      simp [hct, beNat]
    | none =>
      have h1 : vT = 1 := hT1 hTv
      subst h1
      have hbe : beNat (natToBE 1 L) = 1 := beNat_natToBE hTlt
      cases hFv : a.falseValue with
      | some fv =>
        have hcf : bytesToHex (natToBE vF L) = fv := hFc fv hFv
        have hnefv : (bytesToHex (natToBE 1 L) == fv) = false := by
          rw [← hcf]
          exact beq_eq_false_iff_ne.mpr hinj
        simp [hnefv, hbe]
      | none => simp [hbe]
  | false =>
    simp only [Bool.false_eq_true, if_false]
    have hg1 : (match a.trueValue with
        | some tv => bytesToHex (natToBE vF L) == tv
        | none => false) = false := by
      cases hTv : a.trueValue with
      | some tv =>
        have hct : bytesToHex (natToBE vT L) = tv := hTc tv hTv
        rw [← hct]
        exact beq_eq_false_iff_ne.mpr (Ne.symm hinj)
      | none => rfl
    rw [hg1]
    simp only [Bool.false_eq_true, if_false]
    cases hFv : a.falseValue with
    | some fv =>
      have hcf : bytesToHex (natToBE vF L) = fv := hFc fv hFv
      simp [hcf, beNat]
    | none =>
      have h0 : vF = 0 := hF0 hFv
      subst h0
      have hbe : beNat (natToBE 0 L) = 0 := beNat_natToBE hFlt
      simp [hbe]

theorem unpack_step_bool {env : Catalog} {n : Nat} {acc : Params} {a : LeafAttrs}
    {b : Bool} {L vT vF : Nat} {enc tail : List Nat} {ts : List Template}
    (hlen : a.length = some L) (hL : 0 < L) (hval : a.value = none)
    (hTc : ∀ s, a.trueValue = some s → bytesToHex (natToBE vT L) = s)
    (hFc : ∀ s, a.falseValue = some s → bytesToHex (natToBE vF L) = s)
    (hTlt : vT < 256 ^ L) (hFlt : vF < 256 ^ L) (hne : vT ≠ vF)
    (hT1 : a.trueValue = none → vT = 1) (hF0 : a.falseValue = none → vF = 0)
    (hpk : intToBytes (((if b then vT else vF) : Nat) : Int) L a.byteorder false
      = some enc) :
    unpackParameters env (n + 1) acc (some (enc ++ tail)) (.tBool a :: ts)
      = unpackParameters env n (dictInsert acc a.name (.vBool b)) (some tail) ts := by
  have hVlt : (if b then vT else vF) < 256 ^ L := by cases b <;> simpa
  have hel : enc.length = L := intToBytes_length hpk
  obtain ⟨htake, hdrop⟩ := take_append_of_length tail hel
  have hne2 : enc ≠ [] := by
    intro h0
    rw [h0] at hel
    simp at hel
    omega
  obtain ⟨b0, enc2, rfl⟩ : ∃ b0 enc2, enc = b0 :: enc2 := by
    cases enc with
    | nil => exact absurd rfl hne2
    | cons u us => exact ⟨u, us, rfl⟩
  have hcore := boolDecodeCore (a := a) (L := L) (b := b)
    hTc hFc hTlt hFlt hne hT1 hF0
  cases hbo : a.byteorder with
  | big =>
    rw [hbo] at hpk
    have henc : b0 :: enc2 = natToBE (if b then vT else vF) L := by
      have hofn := intToBytes_ofNat (l := L) hVlt
      rw [hofn] at hpk
      exact (Option.some.injEq _ _ ▸ hpk.symm :)
    simp only [unpackParameters, attrsOf, hlen, hval, htake, hdrop, hbo,
      truthyBytes, Bool.not_true, Bool.false_and, Bool.false_eq_true, if_false,
      Option.isSome_none, Option.map_some']
    rw [if_neg (by simp : ¬(Endian.big = Endian.little))]
    simp only [henc, hcore]
  | little =>
    rw [hbo] at hpk
    have hpk2 := intToBytes_little_to_big hpk
    have henc : (b0 :: enc2).reverse = natToBE (if b then vT else vF) L := by
      have hofn := intToBytes_ofNat (l := L) hVlt
      rw [hofn] at hpk2
      exact (Option.some.injEq _ _ ▸ hpk2.symm :)
    simp only [unpackParameters, attrsOf, hlen, hval, htake, hdrop, hbo,
      truthyBytes, Bool.not_true, Bool.false_and, Bool.false_eq_true, if_false,
      Option.isSome_none, Option.map_some']
    rw [if_pos trivial]
    simp only [Option.map_some', henc, hcore]

/-! ## Trailing unsized fields and arrays -/

theorem unpack_last_str {env : Catalog} {n : Nat} {acc : Params} {a : LeafAttrs}
    {s : String} {enc : List Nat}
    (hn : 0 < n)
    (hlen : a.length = none) (hval : a.value = none)
    (hascii : s.data.all (fun c => c.toNat < 128) = true)
    (hnem : s.data.isEmpty = false)
    (henc : enc = (match a.byteorder with
      | Endian.big => s.data.map Char.toNat
      | Endian.little => (s.data.map Char.toNat).reverse)) :
    unpackParameters env (n + 1) acc (some enc) [.tStr a]
      = some (dictInsert acc a.name (.vStr s), none) := by
  have hlt : ∀ b ∈ s.data.map Char.toNat, b < 128 := by
    intro b hb
    obtain ⟨c, hc, rfl⟩ := List.mem_map.mp hb
    exact of_decide_eq_true (List.all_eq_true.mp hascii c hc)
  have hback : (s.data.map Char.toNat).map Char.ofNat = s.data := by
    rw [List.map_map]
    have hco : (Char.ofNat ∘ Char.toNat) = id := by
      funext c
      exact Char.ofNat_toNat c
    rw [hco, List.map_id]
  have hallmap : (s.data.map Char.toNat).all (fun b => decide (b < 128)) = true :=
    List.all_eq_true.mpr fun b hb => decide_eq_true (hlt b hb)
  have hne : enc ≠ [] := by
    rw [henc]
    cases a.byteorder <;> simp_all [List.isEmpty_iff]
  obtain ⟨b0, enc2, hcons⟩ : ∃ b0 enc2, enc = b0 :: enc2 := by
    cases enc with
    | nil => exact absurd rfl hne
    | cons u us => exact ⟨u, us, rfl⟩
  obtain ⟨m, rfl⟩ : ∃ m, n = m + 1 := ⟨n - 1, by omega⟩
  have hstr : String.mk s.data = s := rfl
  have hfin : ∀ ps : Params,
      unpackParameters env (m + 1) ps none ([] : List Template) = some (ps, none) := by
    intro ps
    rfl
  cases hbo : a.byteorder with
  | big =>
    rw [hbo] at henc
    simp only at henc
    rw [hcons] at henc
    simp only [unpackParameters, attrsOf, hlen, hval, hcons, hbo,
      truthyBytes, Bool.not_true, Bool.false_and, Bool.false_eq_true, if_false,
      Option.isSome_none, Option.map_some']
    rw [if_neg (by simp : ¬(Endian.big = Endian.little))]
    simp only [henc, hallmap, if_true, hback, hstr, hfin]
  | little =>
    rw [hbo] at henc
    simp only at henc
    rw [hcons] at henc
    have hrev : (b0 :: enc2).reverse = s.data.map Char.toNat := by
      rw [henc, List.reverse_reverse]
    simp only [unpackParameters, attrsOf, hlen, hval, hcons, hbo,
      truthyBytes, Bool.not_true, Bool.false_and, Bool.false_eq_true, if_false,
      Option.isSome_none, Option.map_some']
    rw [if_pos trivial]
    simp only [Option.map_some', hrev, hallmap, if_true, hback, hstr, hfin]

theorem unpack_last_bytes {env : Catalog} {n : Nat} {acc : Params} {a : LeafAttrs}
    {l : List Nat}
    (hn : 0 < n)
    (hlen : a.length = none) (hval : a.value = none) (hbo : a.byteorder = .big)
    (hnem : l ≠ []) :
    unpackParameters env (n + 1) acc (some l) [.tBytes a]
      = some (dictInsert acc a.name (.vBytes l), none) := by
  obtain ⟨b0, l2, rfl⟩ : ∃ b0 l2, l = b0 :: l2 := by
    cases l with
    | nil => exact absurd rfl hnem
    | cons u us => exact ⟨u, us, rfl⟩
  obtain ⟨m, rfl⟩ : ∃ m, n = m + 1 := ⟨n - 1, by omega⟩
  simp only [unpackParameters, attrsOf, hlen, hval, hbo,
    truthyBytes, Bool.not_true, Bool.false_and, Bool.false_eq_true, if_false,
    Option.isSome_none, Option.map_some']
  rw [if_neg (by simp : ¬(Endian.big = Endian.little))]

theorem optionConcatMap_eq {α β : Type} {f : α → Option (List β)} :
    ∀ {as : List α} {bs : List β}, optionConcatMap f as = some bs →
    ∃ encs, List.Forall₂ (fun a e => f a = some e) as encs ∧ bs = encs.flatten := by
  intro as
  induction as with
  | nil =>
    intro bs h
    simp only [optionConcatMap, Option.some.injEq] at h
    exact ⟨[], List.Forall₂.nil, by simp [← h]⟩
  | cons a rest ih =>
    intro bs h
    simp only [optionConcatMap] at h
    cases hfa : f a with
    | none => rw [hfa] at h; exact absurd h (by simp)
    | some e =>
      rw [hfa] at h
      cases hrest : optionConcatMap f rest with
      | none => rw [hrest] at h; exact absurd h (by simp)
      | some bs2 =>
        rw [hrest] at h
        simp only [Option.some.injEq] at h
        obtain ⟨encs, hf2, hflat⟩ := ih hrest
        exact ⟨e :: encs, List.Forall₂.cons hfa hf2, by simp [← h, hflat]⟩

theorem whileUnpack_spec
    (step : Option (List Nat) → Option (Params × Option (List Nat)))
    {nm : String} :
    ∀ {elems : List PValue} {encs : List (List Nat)},
      List.Forall₂ (fun e enc =>
        (∀ tail, step (some (enc ++ tail)) = some ([(nm, e)], some tail)) ∧
        enc ≠ []) elems encs →
      ∀ b, encs.flatten.length < b →
      whileUnpack step b (some encs.flatten) = some elems := by
  intro elems encs h
  induction h with
  | nil =>
    intro b hb
    obtain ⟨b2, rfl⟩ : ∃ b2, b = b2 + 1 := ⟨b - 1, by simp at hb; omega⟩
    simp [whileUnpack, truthyBytes]
  | @cons e enc elems2 encs2 hhead htail ih =>
    intro b hb
    simp only [List.flatten_cons, List.length_append] at hb
    obtain ⟨b2, rfl⟩ : ∃ b2, b = b2 + 1 := ⟨b - 1, by omega⟩
    obtain ⟨x, xs, hx⟩ : ∃ x xs, enc = x :: xs := by
      cases enc with
      | nil => exact absurd rfl hhead.2
      | cons u us => exact ⟨u, us, rfl⟩
    have htr : truthyBytes (some (enc ++ encs2.flatten)) = true := by
      rw [hx]; rfl
    have hstep := hhead.1 encs2.flatten
    have hih : whileUnpack step b2 (some encs2.flatten) = some elems2 := by
      apply ih
      have : enc.length = xs.length + 1 := by rw [hx]; rfl
      omega
    simp [whileUnpack, htr, hstep, hih]

theorem unpackParameters_cons {env : Catalog} {n : Nat} {acc : Params}
    {data : Option (List Nat)} {t : Template} {ts : List Template} :
    unpackParameters env (n + 1) acc data (t :: ts)
      = unpackStep env n acc data t ts := by
  simp only [unpackParameters, unpackStep]

theorem unpack_last_array {env : Catalog} {n : Nat} {acc : Params}
    {a : LeafAttrs} {items : Template} {nm : String}
    {elems : List PValue} {encs : List (List Nat)}
    (hn : 0 < n)
    (hlen : a.length = none) (hval : a.value = none) (hbo : a.byteorder = .big)
    (hfa : List.Forall₂ (fun e enc =>
        (∀ tail, unpackParameters env n [] (some (enc ++ tail)) [items]
          = some ([(nm, e)], some tail)) ∧ enc ≠ []) elems encs) :
    unpackParameters env (n + 1) acc (some encs.flatten) [.tArray a items]
      = some (dictInsert acc a.name (.vArray elems), none) := by
  obtain ⟨m, rfl⟩ : ∃ m, n = m + 1 := ⟨n - 1, by omega⟩
  have hloop := whileUnpack_spec
    (fun pb0 => unpackParameters env (m + 1) [] pb0 [items]) hfa
    (encs.flatten.length + 1) (by omega)
  rw [unpackParameters_cons]
  simp only [unpackStep, attrsOf, hlen, hval, hbo,
    Bool.not_true, Bool.and_false, Bool.false_eq_true, if_false,
    Option.isSome_none, Option.map_some']
  rw [if_neg (by simp : ¬(Endian.big = Endian.little))]
  simp only [lengthBytes, hloop]
  rfl

theorem resolveCases_mem {cn : Option String} :
    ∀ {cases : List SelectCase} {dflt : Option (List Template)}
      {br : List Template},
      resolveCases cn dflt cases = some br →
      (∃ names, SelectCase.scase names br ∈ cases) ∨
      (SelectCase.sdefault br ∈ cases) ∨ dflt = some br := by
  intro cases
  induction cases with
  | nil =>
    intro dflt br h
    exact Or.inr (Or.inr h)
  | cons c rest ih =>
    intro dflt br h
    cases c with
    | sdefault ps =>
      simp only [resolveCases] at h
      rcases ih h with h2 | h2 | h2
      · exact Or.inl (by obtain ⟨names, hn2⟩ := h2; exact ⟨names, by simp [hn2]⟩)
      · exact Or.inr (Or.inl (by simp [h2]))
      · simp only [Option.some.injEq] at h2
        subst h2
        exact Or.inr (Or.inl (by simp))
    | scase names ps =>
      simp only [resolveCases] at h
      split at h
      · simp only [Option.some.injEq] at h
        subst h
        exact Or.inl ⟨names, by simp⟩
      · rcases ih h with h2 | h2 | h2
        · exact Or.inl (by obtain ⟨names2, hn2⟩ := h2; exact ⟨names2, by simp [hn2]⟩)
        · exact Or.inr (Or.inl (by simp [h2]))
        · exact Or.inr (Or.inr h2)

theorem packParameters_cons {env : Catalog} {n : Nat} {ps : Params}
    {t : Template} {ts : List Template} :
    packParameters env (n + 1) ps (t :: ts)
      = (match packHead env n ps t with
         | none => none
         | some bs =>
           match packParameters env n ps ts with
           | none => none
           | some rest => some (bs ++ rest)) := rfl

theorem packParameters_cons_inv {env : Catalog} {n : Nat} {ps : Params}
    {t : Template} {ts : List Template} {bs : List Nat}
    (h : packParameters env (n + 1) ps (t :: ts) = some bs) :
    ∃ head rest, packHead env n ps t = some head ∧
      packParameters env n ps ts = some rest ∧ bs = head ++ rest := by
  rw [packParameters_cons] at h
  cases hh : packHead env n ps t with
  | none => rw [hh] at h; exact absurd h (by simp)
  | some head =>
    rw [hh] at h
    cases hr : packParameters env n ps ts with
    | none => rw [hr] at h; exact absurd h (by simp)
    | some rest =>
      rw [hr] at h
      simp only [Option.some.injEq] at h
      exact ⟨head, rest, rfl, rfl, h.symm⟩

theorem packHead_fixed_length {env : Catalog} {n : Nat} {ps : Params}
    {t : Template} {head : List Nat}
    (hleaf : match t with
      | .tBool _ | .tInt _ | .tHex _ | .tEnum _ _ => True
      | _ => False)
    (h : packHead env n ps t = some head) :
    head.length = (attrsOf t).length.getD 1 := by
  cases t <;> simp only at hleaf <;>
    simp only [packHead, attrsOf] at h ⊢ <;>
    (repeat' split at h) <;>
    first
      | exact absurd h (by simp)
      | exact intToBytes_length h

theorem packNonempty {env : Catalog} :
    ∀ m : Nat, ∀ {ts : List Template} {n : Nat} {ps : Params} {bs : List Nat},
      (ts.any fun t => itemMin1 env m t) = true →
      wfTemplates env false n ts = true →
      packParameters env n ps ts = some bs → bs ≠ [] := by
  intro m
  induction m with
  | zero =>
    intro ts n ps bs hany _ _
    simp [itemMin1] at hany
  | succ m ihm =>
    intro ts
    induction ts with
    | nil =>
      intro n ps bs hany
      simp at hany
    | cons t rest ihts =>
      intro n ps bs hany hwf hpk
      obtain ⟨n2, rfl⟩ : ∃ n2, n = n2 + 1 := by
        cases n with
        | zero => simp [wfTemplates] at hwf
        | succ k => exact ⟨k, rfl⟩
      obtain ⟨head, restbs, hh, hr, rfl⟩ := packParameters_cons_inv hpk
      simp only [wfTemplates, Bool.and_eq_true] at hwf
      simp only [List.any_cons, Bool.or_eq_true] at hany
      rcases hany with hmin | hrest
      · have hhead : head ≠ [] := by
          cases t with
          | tBool a =>
            have hwfh : ((match a.length with
                | some L => decide (0 < L)
                | none => false) && boolValsOk a (a.length.getD 1)) = true := hwf.1
            have hL : ∃ L, a.length = some L ∧ 0 < L := by
              rcases ha : a.length with _ | L
              · rw [ha] at hwfh
                simp at hwfh
              · rw [ha] at hwfh
                simp only [Bool.and_eq_true, decide_eq_true_eq] at hwfh
                exact ⟨L, rfl, hwfh.1⟩
            obtain ⟨L, haL, h0L⟩ := hL
            have hlen := packHead_fixed_length (by trivial) hh
            simp only [attrsOf, haL, Option.getD_some] at hlen
            intro h0
            rw [h0] at hlen
            simp at hlen
            omega
          | tInt a =>
            have hwfh : (match a.length with
                | some L => decide (0 < L)
                | none => false) = true := hwf.1
            have hL : ∃ L, a.length = some L ∧ 0 < L := by
              rcases ha : a.length with _ | L
              · rw [ha] at hwfh
                simp at hwfh
              · rw [ha] at hwfh
                simp only [decide_eq_true_eq] at hwfh
                exact ⟨L, rfl, hwfh⟩
            obtain ⟨L, haL, h0L⟩ := hL
            have hlen := packHead_fixed_length (by trivial) hh
            simp only [attrsOf, haL, Option.getD_some] at hlen
            intro h0
            rw [h0] at hlen
            simp at hlen
            omega
          | tHex a =>
            have hwfh : (match a.length with
                | some L => decide (0 < L)
                | none => false) = true := hwf.1
            have hL : ∃ L, a.length = some L ∧ 0 < L := by
              rcases ha : a.length with _ | L
              · rw [ha] at hwfh
                simp at hwfh
              · rw [ha] at hwfh
                simp only [decide_eq_true_eq] at hwfh
                exact ⟨L, rfl, hwfh⟩
            obtain ⟨L, haL, h0L⟩ := hL
            have hlen := packHead_fixed_length (by trivial) hh
            simp only [attrsOf, haL, Option.getD_some] at hlen
            intro h0
            rw [h0] at hlen
            simp at hlen
            omega
          | tEnum etype a =>
            have hwfh : ((match a.length with
                | some L => decide (0 < L)
                | none => false) && (lookupEnum env etype).isSome) = true := hwf.1
            have hL : ∃ L, a.length = some L ∧ 0 < L := by
              rcases ha : a.length with _ | L
              · rw [ha] at hwfh
                simp at hwfh
              · rw [ha] at hwfh
                simp only [Bool.and_eq_true, decide_eq_true_eq] at hwfh
                exact ⟨L, rfl, hwfh.1⟩
            obtain ⟨L, haL, h0L⟩ := hL
            have hlen := packHead_fixed_length (by trivial) hh
            simp only [attrsOf, haL, Option.getD_some] at hlen
            intro h0
            rw [h0] at hlen
            simp at hlen
            omega
          | tObject a props =>
            simp only [itemMin1] at hmin
            have hwfh : (a.length.isNone && decide (a.byteorder = .big) &&
                a.value.isNone && wfTemplates env false n2 props) = true := hwf.1
            simp only [Bool.and_eq_true] at hwfh
            have hwfp : wfTemplates env false n2 props = true := hwfh.2
            simp only [packHead] at hh
            have hvn : a.value = none := by
              rcases hv : a.value with _ | v
              · rfl
              · rw [hv] at hwfh
                simp [attrsOf] at hwfh
            rw [show (attrsOf (.tObject a props)).value = a.value from rfl, hvn] at hh
            simp only at hh
            rcases hlk : dictLookup ps (attrsOf (.tObject a props)).name with _ | pv
            · rw [hlk] at hh
              exact absurd hh (by simp)
            · rw [hlk] at hh
              simp only at hh
              cases pv with
              | vObject kvs => exact ihm hmin hwfp hh
              | vBool b => exact absurd hh (by simp)
              | vInt i => exact absurd hh (by simp)
              | vStr s => exact absurd hh (by simp)
              | vHex s => exact absurd hh (by simp)
              | vBytes l => exact absurd hh (by simp)
              | vArray l => exact absurd hh (by simp)
              | vEnum e1 e2 e3 => exact absurd hh (by simp)
          | tStr a => simp [itemMin1] at hmin
          | tBytes a => simp [itemMin1] at hmin
          | tArray a items => simp [itemMin1] at hmin
          | tSelect var cases => simp [itemMin1] at hmin
          | tRef rname => simp [itemMin1] at hmin
        intro h0
        rcases List.append_eq_nil.mp h0 with ⟨h1, _⟩
        exact hhead h1
      · have hrne : restbs ≠ [] := ihts hrest hwf.2 hr
        intro h0
        rcases List.append_eq_nil.mp h0 with ⟨_, h2⟩
        exact hrne h2

theorem fitsTemplates_cons {env : Catalog} {n : Nat} {params : Params}
    {i : Nat} {t : Template} {ts : List Template} :
    fitsTemplates env (n + 1) params i (t :: ts)
      = (match fitsStep env n params i t with
         | none => none
         | some j => fitsTemplates env n params j ts) := by
  simp only [fitsTemplates, fitsStep]

theorem fitsTemplates_cons_inv {env : Catalog} {n : Nat} {params : Params}
    {i j : Nat} {t : Template} {ts : List Template}
    (h : fitsTemplates env (n + 1) params i (t :: ts) = some j) :
    ∃ k, fitsStep env n params i t = some k ∧
      fitsTemplates env n params k ts = some j := by
  rw [fitsTemplates_cons] at h
  cases hs : fitsStep env n params i t with
  | none => rw [hs] at h; exact absurd h (by simp)
  | some k =>
    rw [hs] at h
    exact ⟨k, rfl, h⟩

theorem wfLenPos {a : LeafAttrs}
    (h : (match a.length with
          | some L => decide (0 < L)
          | none => false) = true) :
    ∃ L, a.length = some L ∧ 0 < L := by
  rcases ha : a.length with _ | L
  · rw [ha] at h
    simp at h
  · rw [ha] at h
    simp only [decide_eq_true_eq] at h
    exact ⟨L, rfl, h⟩

theorem round_nil {env : Catalog} {n : Nat} {flag : Bool} {params : Params}
    {i j : Nat} {bs rest : List Nat}
    (hfit : fitsTemplates env (n + 1) params i ([] : List Template) = some j)
    (hpk : packParameters env (n + 1) params ([] : List Template) = some bs) :
    ∃ d, unpackParameters env (n + 1) (params.take i) (some (bs ++ rest))
        ([] : List Template) = some (params.take j, d) ∧
      (flag = false → d = some rest) := by
  have hj : j = i := by
    simp only [fitsTemplates, Option.some.injEq] at hfit
    exact hfit.symm
  have hbs : bs = [] := by
    simp only [packParameters, Option.some.injEq] at hpk
    exact hpk.symm
  subst hj
  subst hbs
  exact ⟨some rest, by simp [unpackParameters], fun _ => rfl⟩

theorem round_cons_tInt {env : Catalog} {n : Nat} (ih : RoundIH env n)
    {flag : Bool} {a : LeafAttrs} {ts : List Template} {params : Params}
    {i j : Nat} {bs rest : List Nat}
    (hwf : wfTemplates env flag (n + 1) (.tInt a :: ts) = true)
    (hnd : keysNodupB params = true)
    (hfit : fitsTemplates env (n + 1) params i (.tInt a :: ts) = some j)
    (hpk : packParameters env (n + 1) params (.tInt a :: ts) = some bs)
    (hre : flag = true → rest = []) :
    ∃ d, unpackParameters env (n + 1) (params.take i) (some (bs ++ rest))
        (.tInt a :: ts) = some (params.take j, d) ∧
      (flag = false → d = some rest) := by
  simp only [wfTemplates, Bool.and_eq_true] at hwf
  have hwfh : (match a.length with
      | some L => decide (0 < L)
      | none => false) = true := hwf.1
  have hwft : wfTemplates env flag n ts = true := hwf.2
  obtain ⟨L, haL, hL⟩ := wfLenPos hwfh
  obtain ⟨head, restbs, hh, hr, rfl⟩ := packParameters_cons_inv hpk
  obtain ⟨j', hstep, hfit2⟩ := fitsTemplates_cons_inv hfit
  rw [List.append_assoc]
  rcases hv : a.value with _ | v
  · -- field value read from the parameter dict
    simp only [fitsStep, attrsOf, hv, Option.isSome_none, Bool.false_eq_true,
      if_false] at hstep
    rcases hg : params.get? i with _ | kv
    · simp only [hg] at hstep
      exact absurd hstep (by simp)
    · obtain ⟨k, pv⟩ := kv
      simp only [hg] at hstep
      split at hstep
      case isFalse => exact absurd hstep (by simp)
      case isTrue hc =>
        have hj' : j' = i + 1 := by
          simp only [Option.some.injEq] at hstep
          exact hstep.symm
        subst hj'
        rw [Bool.and_eq_true] at hc
        have hk : k = a.name := by
          have := hc.1
          simpa [attrsOf] using this
        subst hk
        cases pv with
        | vInt x =>
          have hx : (intToBytes x (a.length.getD 1) a.byteorder a.signed).isSome
              = true := hc.2
          simp only [packHead, attrsOf, hv] at hh
          have hlk := dictLookup_of_get? hnd hg
          rw [hlk] at hh
          simp only [pvToInt] at hh
          rw [haL] at hh
          simp only [Option.getD_some] at hh
          rw [unpack_step_int haL hL hv hh, dictInsert_take hnd hg]
          exact ih hwft hnd hfit2 hr hre
        | vBool b => exact absurd hc.2 (by simp)
        | vStr s => exact absurd hc.2 (by simp)
        | vHex s => exact absurd hc.2 (by simp)
        | vBytes l => exact absurd hc.2 (by simp)
        | vObject kvs => exact absurd hc.2 (by simp)
        | vArray l => exact absurd hc.2 (by simp)
        | vEnum e1 e2 e3 => exact absurd hc.2 (by simp)
  · -- constant field: skipped by the decoder
    have hj' : j' = i := by
      simp only [fitsStep, attrsOf, hv, Option.isSome_some, if_true,
        Option.some.injEq] at hstep
      exact hstep.symm
    subst hj'
    have hvs : (attrsOf (Template.tInt a)).value.isSome = true := by
      simp [attrsOf, hv]
    have hel : head.length = L := by
      have := packHead_fixed_length (t := .tInt a) trivial hh
      simpa [attrsOf, haL] using this
    rw [unpack_step_const trivial (by simpa [attrsOf] using haL) hL hvs hel]
    exact ih hwft hnd hfit2 hr hre

theorem round_cons_tHex {env : Catalog} {n : Nat} (ih : RoundIH env n)
    {flag : Bool} {a : LeafAttrs} {ts : List Template} {params : Params}
    {i j : Nat} {bs rest : List Nat}
    (hwf : wfTemplates env flag (n + 1) (.tHex a :: ts) = true)
    (hnd : keysNodupB params = true)
    (hfit : fitsTemplates env (n + 1) params i (.tHex a :: ts) = some j)
    (hpk : packParameters env (n + 1) params (.tHex a :: ts) = some bs)
    (hre : flag = true → rest = []) :
    ∃ d, unpackParameters env (n + 1) (params.take i) (some (bs ++ rest))
        (.tHex a :: ts) = some (params.take j, d) ∧
      (flag = false → d = some rest) := by
  simp only [wfTemplates, Bool.and_eq_true] at hwf
  have hwfh : (match a.length with
      | some L => decide (0 < L)
      | none => false) = true := hwf.1
  have hwft : wfTemplates env flag n ts = true := hwf.2
  obtain ⟨L, haL, hL⟩ := wfLenPos hwfh
  obtain ⟨head, restbs, hh, hr, rfl⟩ := packParameters_cons_inv hpk
  obtain ⟨j', hstep, hfit2⟩ := fitsTemplates_cons_inv hfit
  rw [List.append_assoc]
  rcases hv : a.value with _ | v
  · -- field value read from the parameter dict
    simp only [fitsStep, attrsOf, hv, Option.isSome_none, Bool.false_eq_true,
      if_false] at hstep
    rcases hg : params.get? i with _ | kv
    · simp only [hg] at hstep
      exact absurd hstep (by simp)
    · obtain ⟨k, pv⟩ := kv
      simp only [hg] at hstep
      split at hstep
      case isFalse => exact absurd hstep (by simp)
      case isTrue hc =>
        have hj' : j' = i + 1 := by
          simp only [Option.some.injEq] at hstep
          exact hstep.symm
        subst hj'
        rw [Bool.and_eq_true] at hc
        have hk : k = a.name := by
          have := hc.1
          simpa [attrsOf] using this
        subst hk
        cases pv with
        | vHex s =>
          have hcanon : canonHexB s (a.length.getD 1) = true := hc.2
          rw [haL] at hcanon
          simp only [Option.getD_some, canonHexB] at hcanon
          rcases hp : parseHex s with _ | x
          · rw [hp] at hcanon
            exact absurd hcanon (by simp)
          · rw [hp] at hcanon
            rw [Bool.and_eq_true] at hcanon
            have hx : x < 256 ^ L := of_decide_eq_true hcanon.1
            have hcs : bytesToHex (natToBE x L) = s := by
              have := hcanon.2
              simpa using this
            simp only [packHead, attrsOf, hv] at hh
            have hlk := dictLookup_of_get? hnd hg
            rw [hlk] at hh
            simp only [hp] at hh
            rw [haL] at hh
            simp only [Option.getD_some] at hh
            rw [unpack_step_hex haL hL hv hx hcs hh, dictInsert_take hnd hg]
            exact ih hwft hnd hfit2 hr hre
        | vBool b => exact absurd hc.2 (by simp)
        | vStr s => exact absurd hc.2 (by simp)
        | vInt x => exact absurd hc.2 (by simp)
        | vBytes l => exact absurd hc.2 (by simp)
        | vObject kvs => exact absurd hc.2 (by simp)
        | vArray l => exact absurd hc.2 (by simp)
        | vEnum e1 e2 e3 => exact absurd hc.2 (by simp)
  · -- constant field: skipped by the decoder
    have hj' : j' = i := by
      simp only [fitsStep, attrsOf, hv, Option.isSome_some, if_true,
        Option.some.injEq] at hstep
      exact hstep.symm
    subst hj'
    have hvs : (attrsOf (Template.tHex a)).value.isSome = true := by
      simp [attrsOf, hv]
    have hel : head.length = L := by
      have := packHead_fixed_length (t := .tHex a) trivial hh
      simpa [attrsOf, haL] using this
    rw [unpack_step_const trivial (by simpa [attrsOf] using haL) hL hvs hel]
    exact ih hwft hnd hfit2 hr hre

theorem round_cons_tEnum {env : Catalog} {n : Nat} (ih : RoundIH env n)
    {flag : Bool} {etype : String} {a : LeafAttrs} {ts : List Template}
    {params : Params} {i j : Nat} {bs rest : List Nat}
    (hwf : wfTemplates env flag (n + 1) (.tEnum etype a :: ts) = true)
    (hnd : keysNodupB params = true)
    (hfit : fitsTemplates env (n + 1) params i (.tEnum etype a :: ts) = some j)
    (hpk : packParameters env (n + 1) params (.tEnum etype a :: ts) = some bs)
    (hre : flag = true → rest = []) :
    ∃ d, unpackParameters env (n + 1) (params.take i) (some (bs ++ rest))
        (.tEnum etype a :: ts) = some (params.take j, d) ∧
      (flag = false → d = some rest) := by
  simp only [wfTemplates, Bool.and_eq_true] at hwf
  have hwfh : (match a.length with
      | some L => decide (0 < L)
      | none => false) = true := hwf.1.1
  have hwft : wfTemplates env flag n ts = true := hwf.2
  obtain ⟨L, haL, hL⟩ := wfLenPos hwfh
  obtain ⟨head, restbs, hh, hr, rfl⟩ := packParameters_cons_inv hpk
  obtain ⟨j', hstep, hfit2⟩ := fitsTemplates_cons_inv hfit
  rw [List.append_assoc]
  rcases hv : a.value with _ | v
  · -- field value read from the parameter dict
    simp only [fitsStep, attrsOf, hv, Option.isSome_none, Bool.false_eq_true,
      if_false] at hstep
    rcases hg : params.get? i with _ | kv
    · simp only [hg] at hstep
      exact absurd hstep (by simp)
    · obtain ⟨k, pv⟩ := kv
      simp only [hg] at hstep
      split at hstep
      case isFalse => exact absurd hstep (by simp)
      case isTrue hc =>
        have hj' : j' = i + 1 := by
          simp only [Option.some.injEq] at hstep
          exact hstep.symm
        subst hj'
        rw [Bool.and_eq_true] at hc
        have hk : k = a.name := by
          have := hc.1
          simpa [attrsOf] using this
        subst hk
        cases pv with
        | vEnum etype2 nm x =>
          have hc2 := hc.2
          simp only [Bool.and_eq_true] at hc2
          have het : etype2 = etype := by
            have := hc2.1.1
            simpa using this
          subst het
          have hx : x < 256 ^ L := by
            have := hc2.1.2
            rw [haL] at this
            simpa using this
          rcases hml : lookupEnum env etype2 with _ | members
          · rw [hml] at hc2
            exact absurd hc2.2 (by simp)
          · have hnm : enumMemberOfValue members x = some nm := by
              have := hc2.2
              rw [hml] at this
              simpa using this
            simp only [packHead, attrsOf, hv] at hh
            have hlk := dictLookup_of_get? hnd hg
            rw [hlk] at hh
            simp only at hh
            rw [haL] at hh
            simp only [Option.getD_some] at hh
            rw [unpack_step_enum haL hL hv hx hh hml hnm,
              dictInsert_take hnd hg]
            exact ih hwft hnd hfit2 hr hre
        | vBool b => exact absurd hc.2 (by simp)
        | vStr s => exact absurd hc.2 (by simp)
        | vInt x => exact absurd hc.2 (by simp)
        | vBytes l => exact absurd hc.2 (by simp)
        | vObject kvs => exact absurd hc.2 (by simp)
        | vArray l => exact absurd hc.2 (by simp)
        | vHex s => exact absurd hc.2 (by simp)
  · -- constant field: skipped by the decoder
    have hj' : j' = i := by
      simp only [fitsStep, attrsOf, hv, Option.isSome_some, if_true,
        Option.some.injEq] at hstep
      exact hstep.symm
    subst hj'
    have hvs : (attrsOf (Template.tEnum etype a)).value.isSome = true := by
      simp [attrsOf, hv]
    have hel : head.length = L := by
      have := packHead_fixed_length (t := .tEnum etype a) trivial hh
      simpa [attrsOf, haL] using this
    rw [unpack_step_const trivial (by simpa [attrsOf] using haL) hL hvs hel]
    exact ih hwft hnd hfit2 hr hre

theorem round_cons_tBool {env : Catalog} {n : Nat} (ih : RoundIH env n)
    {flag : Bool} {a : LeafAttrs} {ts : List Template} {params : Params}
    {i j : Nat} {bs rest : List Nat}
    (hwf : wfTemplates env flag (n + 1) (.tBool a :: ts) = true)
    (hnd : keysNodupB params = true)
    (hfit : fitsTemplates env (n + 1) params i (.tBool a :: ts) = some j)
    (hpk : packParameters env (n + 1) params (.tBool a :: ts) = some bs)
    (hre : flag = true → rest = []) :
    ∃ d, unpackParameters env (n + 1) (params.take i) (some (bs ++ rest))
        (.tBool a :: ts) = some (params.take j, d) ∧
      (flag = false → d = some rest) := by
  simp only [wfTemplates, Bool.and_eq_true] at hwf
  have hwfh : (match a.length with
      | some L => decide (0 < L)
      | none => false) = true ∧ boolValsOk a (a.length.getD 1) = true := hwf.1
  have hwft : wfTemplates env flag n ts = true := hwf.2
  obtain ⟨L, haL, hL⟩ := wfLenPos hwfh.1
  have hbv : boolValsOk a L = true := by
    have := hwfh.2
    rw [haL] at this
    simpa using this
  obtain ⟨vT, vF, hTp, hFp, hTc, hFc, hTlt, hFlt, hneq⟩ := boolValsOk_spec hbv
  have hT1 : a.trueValue = none → vT = 1 := by
    intro h0
    rw [h0] at hTp
    simp only [Option.some.injEq] at hTp
    exact hTp.symm
  have hF0 : a.falseValue = none → vF = 0 := by
    intro h0
    rw [h0] at hFp
    simp only [Option.some.injEq] at hFp
    exact hFp.symm
  obtain ⟨head, restbs, hh, hr, rfl⟩ := packParameters_cons_inv hpk
  obtain ⟨j', hstep, hfit2⟩ := fitsTemplates_cons_inv hfit
  rw [List.append_assoc]
  rcases hv : a.value with _ | v
  · -- field value read from the parameter dict
    simp only [fitsStep, attrsOf, hv, Option.isSome_none, Bool.false_eq_true,
      if_false] at hstep
    rcases hg : params.get? i with _ | kv
    · simp only [hg] at hstep
      exact absurd hstep (by simp)
    · obtain ⟨k, pv⟩ := kv
      simp only [hg] at hstep
      split at hstep
      case isFalse => exact absurd hstep (by simp)
      case isTrue hc =>
        have hj' : j' = i + 1 := by
          simp only [Option.some.injEq] at hstep
          exact hstep.symm
        subst hj'
        rw [Bool.and_eq_true] at hc
        have hk : k = a.name := by
          have := hc.1
          simpa [attrsOf] using this
        subst hk
        cases pv with
        | vBool b =>
          simp only [packHead, attrsOf, hv] at hh
          have hlk := dictLookup_of_get? hnd hg
          rw [hlk] at hh
          simp only [truthy] at hh
          have hh2 : intToBytes (((if b then vT else vF) : Nat) : Int) L
              a.byteorder false = some head := by
            cases b with
            | true =>
              rw [if_pos rfl] at hh ⊢
              rcases htv : a.trueValue with _ | s
              · rw [htv] at hh
                simp only [pvToInt, if_pos rfl] at hh
                rw [haL] at hh
                simp only [Option.getD_some] at hh
                rw [hT1 htv]
                simpa using hh
              · rw [htv] at hTp hh
                simp only at hTp hh
                rw [hTp] at hh
                simp only at hh
                rw [haL] at hh
                simpa using hh
            | false =>
              rw [if_neg (by simp)] at hh ⊢
              rcases hfv : a.falseValue with _ | s
              · rw [hfv] at hh
                simp only [pvToInt, if_neg (by simp : ¬(false = true))] at hh
                rw [haL] at hh
                simp only [Option.getD_some] at hh
                rw [hF0 hfv]
                simpa using hh
              · rw [hfv] at hFp hh
                simp only at hFp hh
                rw [hFp] at hh
                simp only at hh
                rw [haL] at hh
                simpa using hh
          rw [unpack_step_bool haL hL hv hTc hFc hTlt hFlt hneq hT1 hF0 hh2,
            dictInsert_take hnd hg]
          exact ih hwft hnd hfit2 hr hre
        | vHex s => exact absurd hc.2 (by simp)
        | vStr s => exact absurd hc.2 (by simp)
        | vInt x => exact absurd hc.2 (by simp)
        | vBytes l => exact absurd hc.2 (by simp)
        | vObject kvs => exact absurd hc.2 (by simp)
        | vArray l => exact absurd hc.2 (by simp)
        | vEnum e1 e2 e3 => exact absurd hc.2 (by simp)
  · -- constant field: skipped by the decoder
    have hj' : j' = i := by
      simp only [fitsStep, attrsOf, hv, Option.isSome_some, if_true,
        Option.some.injEq] at hstep
      exact hstep.symm
    subst hj'
    have hvs : (attrsOf (Template.tBool a)).value.isSome = true := by
      simp [attrsOf, hv]
    have hel : head.length = L := by
      have := packHead_fixed_length (t := .tBool a) trivial hh
      simpa [attrsOf, haL] using this
    rw [unpack_step_const trivial (by simpa [attrsOf] using haL) hL hvs hel]
    exact ih hwft hnd hfit2 hr hre

theorem round_cons_tStr {env : Catalog} {n : Nat} (ih : RoundIH env n)
    {flag : Bool} {a : LeafAttrs} {ts : List Template} {params : Params}
    {i j : Nat} {bs rest : List Nat}
    (hwf : wfTemplates env flag (n + 1) (.tStr a :: ts) = true)
    (hnd : keysNodupB params = true)
    (hfit : fitsTemplates env (n + 1) params i (.tStr a :: ts) = some j)
    (hpk : packParameters env (n + 1) params (.tStr a :: ts) = some bs)
    (hre : flag = true → rest = []) :
    ∃ d, unpackParameters env (n + 1) (params.take i) (some (bs ++ rest))
        (.tStr a :: ts) = some (params.take j, d) ∧
      (flag = false → d = some rest) := by
  simp only [wfTemplates, Bool.and_eq_true] at hwf
  have hwfh : (match a.length with
      | some L => decide (0 < L)
      | none => ts.isEmpty && flag && a.value.isNone) = true ∧
      (match a.value, a.length with
       | some (.vStr s), some L => s.data.length == L
       | _, _ => true) = true := hwf.1
  have hwft : wfTemplates env flag n ts = true := hwf.2
  obtain ⟨head, restbs, hh, hr, rfl⟩ := packParameters_cons_inv hpk
  obtain ⟨j', hstep, hfit2⟩ := fitsTemplates_cons_inv hfit
  rw [List.append_assoc]
  rcases haL : a.length with _ | L
  · -- unsized trailing string: final field of a top-level template list
    have hw1 := hwfh.1
    rw [haL] at hw1
    simp only [Bool.and_eq_true] at hw1
    obtain ⟨⟨hts, hfl⟩, hvn⟩ := hw1
    have hts' : ts = [] := List.isEmpty_iff.mp hts
    have hv : a.value = none := Option.isNone_iff_eq_none.mp hvn
    subst hts'
    have hrest : rest = [] := hre hfl
    subst hrest
    obtain ⟨m, rfl⟩ : ∃ m, n = m + 1 := by
      cases n with
      | zero => exact absurd hr (by simp [packParameters])
      | succ k => exact ⟨k, rfl⟩
    have hrb : restbs = [] := by
      simp only [packParameters, Option.some.injEq] at hr
      exact hr.symm
    subst hrb
    simp only [fitsStep, attrsOf, hv, Option.isSome_none, Bool.false_eq_true,
      if_false] at hstep
    rcases hg : params.get? i with _ | kv
    · simp only [hg] at hstep
      exact absurd hstep (by simp)
    · obtain ⟨k, pv⟩ := kv
      simp only [hg] at hstep
      split at hstep
      case isFalse => exact absurd hstep (by simp)
      case isTrue hc =>
        have hj' : j' = i + 1 := by
          simp only [Option.some.injEq] at hstep
          exact hstep.symm
        subst hj'
        have hj : j = i + 1 := by
          simp only [fitsTemplates, Option.some.injEq] at hfit2
          exact hfit2.symm
        subst hj
        rw [Bool.and_eq_true] at hc
        have hk : k = a.name := by
          have := hc.1
          simpa [attrsOf] using this
        subst hk
        cases pv with
        | vStr s =>
          have hc2 : ((s.data.all fun c => decide (c.toNat < 128)) &&
              !s.data.isEmpty &&
              (match a.length with
               | some L => s.data.length == L
               | none => true)) = true := hc.2
          rw [haL] at hc2
          simp only [Bool.and_eq_true] at hc2
          obtain ⟨⟨hascii, hnem⟩, _⟩ := hc2
          simp only [packHead, attrsOf, hv] at hh
          have hlk := dictLookup_of_get? hnd hg
          rw [hlk] at hh
          simp only [hascii, if_true] at hh
          have henc : head = (match a.byteorder with
              | Endian.big => s.data.map Char.toNat
              | Endian.little => (s.data.map Char.toNat).reverse) := by
            simpa using hh.symm
          simp only [List.append_nil]
          rw [unpack_last_str (Nat.succ_pos m) haL hv hascii
            (by simpa using hnem) henc, dictInsert_take hnd hg]
          exact ⟨none, rfl, by
            intro h0
            rw [h0] at hfl
            exact absurd hfl (by simp)⟩
        | vBool b => exact absurd hc.2 (by simp)
        | vHex s => exact absurd hc.2 (by simp)
        | vInt x => exact absurd hc.2 (by simp)
        | vBytes l => exact absurd hc.2 (by simp)
        | vObject kvs => exact absurd hc.2 (by simp)
        | vArray l => exact absurd hc.2 (by simp)
        | vEnum e1 e2 e3 => exact absurd hc.2 (by simp)
  · -- sized string
    have hL : 0 < L := by
      have := hwfh.1
      rw [haL] at this
      simpa using this
    rcases hv : a.value with _ | v
    · -- read from the parameter dict
      simp only [fitsStep, attrsOf, hv, Option.isSome_none, Bool.false_eq_true,
        if_false] at hstep
      rcases hg : params.get? i with _ | kv
      · simp only [hg] at hstep
        exact absurd hstep (by simp)
      · obtain ⟨k, pv⟩ := kv
        simp only [hg] at hstep
        split at hstep
        case isFalse => exact absurd hstep (by simp)
        case isTrue hc =>
          have hj' : j' = i + 1 := by
            simp only [Option.some.injEq] at hstep
            exact hstep.symm
          subst hj'
          rw [Bool.and_eq_true] at hc
          have hk : k = a.name := by
            have := hc.1
            simpa [attrsOf] using this
          subst hk
          cases pv with
          | vStr s =>
            have hc2 : ((s.data.all fun c => decide (c.toNat < 128)) &&
                !s.data.isEmpty &&
                (match a.length with
                 | some L => s.data.length == L
                 | none => true)) = true := hc.2
            rw [haL] at hc2
            simp only [Bool.and_eq_true] at hc2
            obtain ⟨⟨hascii, hnem⟩, hlenb⟩ := hc2
            have hsl : s.data.length = L := by simpa using hlenb
            simp only [packHead, attrsOf, hv] at hh
            have hlk := dictLookup_of_get? hnd hg
            rw [hlk] at hh
            simp only [hascii, if_true] at hh
            have henc : head = (match a.byteorder with
                | Endian.big => s.data.map Char.toNat
                | Endian.little => (s.data.map Char.toNat).reverse) := by
              simpa using hh.symm
            rw [unpack_step_str haL hL hv hascii hsl henc,
              dictInsert_take hnd hg]
            exact ih hwft hnd hfit2 hr hre
          | vBool b => exact absurd hc.2 (by simp)
          | vHex s => exact absurd hc.2 (by simp)
          | vInt x => exact absurd hc.2 (by simp)
          | vBytes l => exact absurd hc.2 (by simp)
          | vObject kvs => exact absurd hc.2 (by simp)
          | vArray l => exact absurd hc.2 (by simp)
          | vEnum e1 e2 e3 => exact absurd hc.2 (by simp)
    · -- constant string field: skipped by the decoder
      have hj' : j' = i := by
        simp only [fitsStep, attrsOf, hv, Option.isSome_some, if_true,
          Option.some.injEq] at hstep
        exact hstep.symm
      subst hj'
      have hvs : (attrsOf (Template.tStr a)).value.isSome = true := by
        simp [attrsOf, hv]
      simp only [packHead, attrsOf, hv] at hh
      cases v with
      | vStr s =>
        have hw2 := hwfh.2
        rw [hv, haL] at hw2
        have hsl : s.data.length = L := by simpa using hw2
        have hh2 : (if (s.data.all fun c => decide (c.toNat < 128)) = true then
            some (match a.byteorder with
              | Endian.big => List.map Char.toNat s.data
              | Endian.little => (List.map Char.toNat s.data).reverse)
          else none) = some head := hh
        rcases hasc : s.data.all (fun c => decide (c.toNat < 128)) with _ | _
        · rw [hasc] at hh2
          simp only [Bool.false_eq_true, if_false] at hh2
          exact absurd hh2 (by simp)
        · rw [hasc] at hh2
          rw [if_pos rfl] at hh2
          simp only [Option.some.injEq] at hh2
          have hel : head.length = L := by
            rw [← hh2]
            cases a.byteorder <;> simp [hsl]
          rw [unpack_step_const trivial (by simpa [attrsOf] using haL) hL hvs hel]
          exact ih hwft hnd hfit2 hr hre
      | vBool b => exact absurd hh (by simp)
      | vHex s => exact absurd hh (by simp)
      | vInt x => exact absurd hh (by simp)
      | vBytes l => exact absurd hh (by simp)
      | vObject kvs => exact absurd hh (by simp)
      | vArray l => exact absurd hh (by simp)
      | vEnum e1 e2 e3 => exact absurd hh (by simp)

theorem round_cons_tBytes {env : Catalog} {n : Nat} (ih : RoundIH env n)
    {flag : Bool} {a : LeafAttrs} {ts : List Template} {params : Params}
    {i j : Nat} {bs rest : List Nat}
    (hwf : wfTemplates env flag (n + 1) (.tBytes a :: ts) = true)
    (hnd : keysNodupB params = true)
    (hfit : fitsTemplates env (n + 1) params i (.tBytes a :: ts) = some j)
    (hpk : packParameters env (n + 1) params (.tBytes a :: ts) = some bs)
    (hre : flag = true → rest = []) :
    ∃ d, unpackParameters env (n + 1) (params.take i) (some (bs ++ rest))
        (.tBytes a :: ts) = some (params.take j, d) ∧
      (flag = false → d = some rest) := by
  simp only [wfTemplates, Bool.and_eq_true] at hwf
  have hwfh : (decide (a.byteorder = Endian.big) = true ∧
      (match a.length with
       | some L => decide (0 < L)
       | none => ts.isEmpty && flag && a.value.isNone) = true) ∧
      (match a.value, a.length with
       | some (.vBytes l), some L => l.length == L
       | _, _ => true) = true := hwf.1
  have hwft : wfTemplates env flag n ts = true := hwf.2
  have hbo : a.byteorder = Endian.big := of_decide_eq_true hwfh.1.1
  obtain ⟨head, restbs, hh, hr, rfl⟩ := packParameters_cons_inv hpk
  obtain ⟨j', hstep, hfit2⟩ := fitsTemplates_cons_inv hfit
  rw [List.append_assoc]
  rcases haL : a.length with _ | L
  · -- unsized trailing bytes: final field of a top-level template list
    have hw1 := hwfh.1.2
    rw [haL] at hw1
    simp only [Bool.and_eq_true] at hw1
    obtain ⟨⟨hts, hfl⟩, hvn⟩ := hw1
    have hts' : ts = [] := List.isEmpty_iff.mp hts
    have hv : a.value = none := Option.isNone_iff_eq_none.mp hvn
    subst hts'
    have hrest : rest = [] := hre hfl
    subst hrest
    obtain ⟨m, rfl⟩ : ∃ m, n = m + 1 := by
      cases n with
      | zero => exact absurd hr (by simp [packParameters])
      | succ k => exact ⟨k, rfl⟩
    have hrb : restbs = [] := by
      simp only [packParameters, Option.some.injEq] at hr
      exact hr.symm
    subst hrb
    simp only [fitsStep, attrsOf, hv, Option.isSome_none, Bool.false_eq_true,
      if_false] at hstep
    rcases hg : params.get? i with _ | kv
    · simp only [hg] at hstep
      exact absurd hstep (by simp)
    · obtain ⟨k, pv⟩ := kv
      simp only [hg] at hstep
      split at hstep
      case isFalse => exact absurd hstep (by simp)
      case isTrue hc =>
        have hj' : j' = i + 1 := by
          simp only [Option.some.injEq] at hstep
          exact hstep.symm
        subst hj'
        have hj : j = i + 1 := by
          simp only [fitsTemplates, Option.some.injEq] at hfit2
          exact hfit2.symm
        subst hj
        rw [Bool.and_eq_true] at hc
        have hk : k = a.name := by
          have := hc.1
          simpa [attrsOf] using this
        subst hk
        cases pv with
        | vBytes l =>
          have hc2 : ((l.all fun b => decide (b < 256)) &&
              (match a.length with
               | some L => l.length == L
               | none => !l.isEmpty)) = true := hc.2
          rw [haL] at hc2
          simp only [Bool.and_eq_true] at hc2
          obtain ⟨hlt, hnem⟩ := hc2
          simp only [packHead, attrsOf, hv] at hh
          have hlk := dictLookup_of_get? hnd hg
          rw [hlk] at hh
          have hh2 : (if (l.all fun b => decide (b < 256)) = true then some l
              else none) = some head := hh
          rw [if_pos hlt] at hh2
          simp only [Option.some.injEq] at hh2
          subst hh2
          simp only [List.append_nil]
          rw [unpack_last_bytes (Nat.succ_pos m) haL hv hbo
            (by simpa [List.isEmpty_iff] using hnem), dictInsert_take hnd hg]
          exact ⟨none, rfl, by
            intro h0
            rw [h0] at hfl
            exact absurd hfl (by simp)⟩
        | vBool b => exact absurd hc.2 (by simp)
        | vHex s => exact absurd hc.2 (by simp)
        | vInt x => exact absurd hc.2 (by simp)
        | vStr s => exact absurd hc.2 (by simp)
        | vObject kvs => exact absurd hc.2 (by simp)
        | vArray l => exact absurd hc.2 (by simp)
        | vEnum e1 e2 e3 => exact absurd hc.2 (by simp)
  · -- sized bytes
    have hL : 0 < L := by
      have := hwfh.1.2
      rw [haL] at this
      simpa using this
    rcases hv : a.value with _ | v
    · -- read from the parameter dict
      simp only [fitsStep, attrsOf, hv, Option.isSome_none, Bool.false_eq_true,
        if_false] at hstep
      rcases hg : params.get? i with _ | kv
      · simp only [hg] at hstep
        exact absurd hstep (by simp)
      · obtain ⟨k, pv⟩ := kv
        simp only [hg] at hstep
        split at hstep
        case isFalse => exact absurd hstep (by simp)
        case isTrue hc =>
          have hj' : j' = i + 1 := by
            simp only [Option.some.injEq] at hstep
            exact hstep.symm
          subst hj'
          rw [Bool.and_eq_true] at hc
          have hk : k = a.name := by
            have := hc.1
            simpa [attrsOf] using this
          subst hk
          cases pv with
          | vBytes l =>
            have hc2 : ((l.all fun b => decide (b < 256)) &&
                (match a.length with
                 | some L => l.length == L
                 | none => !l.isEmpty)) = true := hc.2
            rw [haL] at hc2
            simp only [Bool.and_eq_true] at hc2
            obtain ⟨hlt, hlenb⟩ := hc2
            have hlL : l.length = L := by simpa using hlenb
            simp only [packHead, attrsOf, hv] at hh
            have hlk := dictLookup_of_get? hnd hg
            rw [hlk] at hh
            have hh2 : (if (l.all fun b => decide (b < 256)) = true then some l
                else none) = some head := hh
            rw [if_pos hlt] at hh2
            simp only [Option.some.injEq] at hh2
            subst hh2
            rw [unpack_step_bytes haL hL hv hbo hlL, dictInsert_take hnd hg]
            exact ih hwft hnd hfit2 hr hre
          | vBool b => exact absurd hc.2 (by simp)
          | vHex s => exact absurd hc.2 (by simp)
          | vInt x => exact absurd hc.2 (by simp)
          | vStr s => exact absurd hc.2 (by simp)
          | vObject kvs => exact absurd hc.2 (by simp)
          | vArray l => exact absurd hc.2 (by simp)
          | vEnum e1 e2 e3 => exact absurd hc.2 (by simp)
    · -- constant bytes field: skipped by the decoder
      have hj' : j' = i := by
        simp only [fitsStep, attrsOf, hv, Option.isSome_some, if_true,
          Option.some.injEq] at hstep
        exact hstep.symm
      subst hj'
      have hvs : (attrsOf (Template.tBytes a)).value.isSome = true := by
        simp [attrsOf, hv]
      simp only [packHead, attrsOf, hv] at hh
      cases v with
      | vBytes l =>
        have hw2 := hwfh.2
        rw [hv, haL] at hw2
        have hlL : l.length = L := by simpa using hw2
        have hh2 : (if (l.all fun b => decide (b < 256)) = true then some l
            else none) = some head := hh
        rcases hlt : l.all fun b => decide (b < 256) with _ | _
        · rw [hlt] at hh2
          simp only [Bool.false_eq_true, if_false] at hh2
          exact absurd hh2 (by simp)
        · rw [if_pos hlt] at hh2
          simp only [Option.some.injEq] at hh2
          subst hh2
          rw [unpack_step_const trivial (by simpa [attrsOf] using haL) hL hvs hlL]
          exact ih hwft hnd hfit2 hr hre
      | vBool b => exact absurd hh (by simp)
      | vHex s => exact absurd hh (by simp)
      | vInt x => exact absurd hh (by simp)
      | vStr s => exact absurd hh (by simp)
      | vObject kvs => exact absurd hh (by simp)
      | vArray l => exact absurd hh (by simp)
      | vEnum e1 e2 e3 => exact absurd hh (by simp)

theorem round_cons_tObject {env : Catalog} {n : Nat} (ih : RoundIH env n)
    {flag : Bool} {a : LeafAttrs} {props ts : List Template} {params : Params}
    {i j : Nat} {bs rest : List Nat}
    (hwf : wfTemplates env flag (n + 1) (.tObject a props :: ts) = true)
    (hnd : keysNodupB params = true)
    (hfit : fitsTemplates env (n + 1) params i (.tObject a props :: ts) = some j)
    (hpk : packParameters env (n + 1) params (.tObject a props :: ts) = some bs)
    (hre : flag = true → rest = []) :
    ∃ d, unpackParameters env (n + 1) (params.take i) (some (bs ++ rest))
        (.tObject a props :: ts) = some (params.take j, d) ∧
      (flag = false → d = some rest) := by
  simp only [wfTemplates, Bool.and_eq_true] at hwf
  have hwfh : ((a.length.isNone = true ∧
      decide (a.byteorder = Endian.big) = true) ∧ a.value.isNone = true) ∧
      wfTemplates env false n props = true := hwf.1
  have hwft : wfTemplates env flag n ts = true := hwf.2
  have hlenN : a.length = none := Option.isNone_iff_eq_none.mp hwfh.1.1.1
  have hbo : a.byteorder = Endian.big := of_decide_eq_true hwfh.1.1.2
  have hv : a.value = none := Option.isNone_iff_eq_none.mp hwfh.1.2
  have hwfp : wfTemplates env false n props = true := hwfh.2
  obtain ⟨head, restbs, hh, hr, rfl⟩ := packParameters_cons_inv hpk
  obtain ⟨j', hstep, hfit2⟩ := fitsTemplates_cons_inv hfit
  rw [List.append_assoc]
  simp only [fitsStep, attrsOf, hv, Option.isSome_none, Bool.false_eq_true,
    if_false] at hstep
  rcases hg : params.get? i with _ | kv
  · simp only [hg] at hstep
    exact absurd hstep (by simp)
  · obtain ⟨k, pv⟩ := kv
    simp only [hg] at hstep
    split at hstep
    case isFalse => exact absurd hstep (by simp)
    case isTrue hc =>
      have hj' : j' = i + 1 := by
        simp only [Option.some.injEq] at hstep
        exact hstep.symm
      subst hj'
      rw [Bool.and_eq_true] at hc
      have hk : k = a.name := by
        have := hc.1
        simpa [attrsOf] using this
      subst hk
      cases pv with
      | vObject kvs =>
        have hc2 : (keysNodupB kvs &&
            (fitsTemplates env n kvs 0 props == some kvs.length)) = true := hc.2
        rw [Bool.and_eq_true] at hc2
        have hknd : keysNodupB kvs = true := hc2.1
        have hfk : fitsTemplates env n kvs 0 props = some kvs.length := by
          simpa using hc2.2
        simp only [packHead, attrsOf, hv] at hh
        have hlk := dictLookup_of_get? hnd hg
        rw [hlk] at hh
        simp only at hh
        obtain ⟨d', hu, hd'⟩ := ih (g := false) (r := restbs ++ rest)
          hwfp hknd hfk hh (by intro h0; exact absurd h0 (by simp))
        have hd2 : d' = some (restbs ++ rest) := hd' rfl
        subst hd2
        rw [List.take_zero, List.take_length] at hu
        rw [unpackParameters_cons]
        simp only [unpackStep, attrsOf, hlenN, hv, hbo,
          Bool.not_true, Bool.and_false, Bool.false_eq_true, if_false,
          Option.isSome_none]
        rw [if_neg (by simp : ¬(Endian.big = Endian.little))]
        simp only [hu]
        rw [dictInsert_take hnd hg]
        exact ih hwft hnd hfit2 hr hre
      | vBool b => exact absurd hc.2 (by simp)
      | vHex s => exact absurd hc.2 (by simp)
      | vInt x => exact absurd hc.2 (by simp)
      | vStr s => exact absurd hc.2 (by simp)
      | vBytes l => exact absurd hc.2 (by simp)
      | vArray l => exact absurd hc.2 (by simp)
      | vEnum e1 e2 e3 => exact absurd hc.2 (by simp)

theorem round_array_elems {env : Catalog} {n : Nat} {nm : String}
    {items : Template} (ih : RoundIH env n)
    (hwfi : wfTemplates env false n [items] = true)
    (hmin : itemMin1 env n items = true) :
    ∀ {elems : List PValue} {encs : List (List Nat)},
      List.Forall₂ (fun e enc =>
        packParameters env n [(nm, e)] [items] = some enc) elems encs →
      (elems.all fun e =>
        fitsTemplates env n [(nm, e)] 0 [items] == some 1) = true →
      List.Forall₂ (fun e enc =>
        (∀ tail, unpackParameters env n [] (some (enc ++ tail)) [items]
          = some ([(nm, e)], some tail)) ∧ enc ≠ []) elems encs := by
  intro elems
  induction elems with
  | nil =>
    intro encs hfa _
    cases hfa
    exact List.Forall₂.nil
  | cons e es ihe =>
    intro encs hfa hall
    cases hfa with
    | cons h1 h2 =>
      simp only [List.all_cons, Bool.and_eq_true] at hall
      have hfit1 : fitsTemplates env n [(nm, e)] 0 [items] = some 1 := by
        simpa using hall.1
      have hnd1 : keysNodupB [(nm, e)] = true := rfl
      refine List.Forall₂.cons ⟨?_, ?_⟩ (ihe h2 hall.2)
      · intro tail
        obtain ⟨d, hu, hd⟩ := ih (g := false) (r := tail)
          hwfi hnd1 hfit1 h1 (by intro h0; exact absurd h0 (by simp))
        have hd2 : d = some tail := hd rfl
        subst hd2
        simpa using hu
      · exact packNonempty n (by simp [hmin]) hwfi h1

theorem round_cons_tArray {env : Catalog} {n : Nat} (ih : RoundIH env n)
    {flag : Bool} {a : LeafAttrs} {items : Template} {ts : List Template}
    {params : Params} {i j : Nat} {bs rest : List Nat}
    (hwf : wfTemplates env flag (n + 1) (.tArray a items :: ts) = true)
    (hnd : keysNodupB params = true)
    (hfit : fitsTemplates env (n + 1) params i (.tArray a items :: ts) = some j)
    (hpk : packParameters env (n + 1) params (.tArray a items :: ts) = some bs)
    (hre : flag = true → rest = []) :
    ∃ d, unpackParameters env (n + 1) (params.take i) (some (bs ++ rest))
        (.tArray a items :: ts) = some (params.take j, d) ∧
      (flag = false → d = some rest) := by
  simp only [wfTemplates, Bool.and_eq_true] at hwf
  have hwfh : ((((((ts.isEmpty = true ∧ flag = true) ∧ a.length.isNone = true) ∧
      decide (a.byteorder = Endian.big) = true) ∧ a.value.isNone = true) ∧
      (itemName items).isSome = true) ∧
      wfTemplates env false n [items] = true) ∧
      itemMin1 env n items = true := hwf.1
  have hts' : ts = [] := List.isEmpty_iff.mp hwfh.1.1.1.1.1.1.1
  have hfl : flag = true := hwfh.1.1.1.1.1.1.2
  have hlenN : a.length = none := Option.isNone_iff_eq_none.mp hwfh.1.1.1.1.1.2
  have hbo : a.byteorder = Endian.big := of_decide_eq_true hwfh.1.1.1.1.2
  have hv : a.value = none := Option.isNone_iff_eq_none.mp hwfh.1.1.1.2
  obtain ⟨nm, hnm⟩ := Option.isSome_iff_exists.mp hwfh.1.1.2
  have hwfi : wfTemplates env false n [items] = true := hwfh.1.2
  have hmin : itemMin1 env n items = true := hwfh.2
  subst hts'
  have hrest : rest = [] := hre hfl
  subst hrest
  obtain ⟨m, rfl⟩ : ∃ m, n = m + 1 := by
    cases n with
    | zero => exact absurd hwfi (by simp [wfTemplates])
    | succ k => exact ⟨k, rfl⟩
  obtain ⟨head, restbs, hh, hr, rfl⟩ := packParameters_cons_inv hpk
  obtain ⟨j', hstep, hfit2⟩ := fitsTemplates_cons_inv hfit
  have hrb : restbs = [] := by
    simp only [packParameters, Option.some.injEq] at hr
    exact hr.symm
  subst hrb
  simp only [fitsStep, attrsOf, hv, Option.isSome_none, Bool.false_eq_true,
    if_false] at hstep
  rcases hg : params.get? i with _ | kv
  · simp only [hg] at hstep
    exact absurd hstep (by simp)
  · obtain ⟨k, pv⟩ := kv
    simp only [hg] at hstep
    split at hstep
    case isFalse => exact absurd hstep (by simp)
    case isTrue hc =>
      have hj' : j' = i + 1 := by
        simp only [Option.some.injEq] at hstep
        exact hstep.symm
      subst hj'
      have hj : j = i + 1 := by
        simp only [fitsTemplates, Option.some.injEq] at hfit2
        exact hfit2.symm
      subst hj
      rw [Bool.and_eq_true] at hc
      have hk : k = a.name := by
        have := hc.1
        simpa [attrsOf] using this
      subst hk
      cases pv with
      | vArray elems =>
        have hc2 : (match itemName items with
            | some nm => elems.all fun e =>
                fitsTemplates env (m + 1) [(nm, e)] 0 [items] == some 1
            | none => false) = true := hc.2
        simp only [hnm] at hc2
        simp only [packHead, attrsOf, hv] at hh
        have hlk := dictLookup_of_get? hnd hg
        rw [hlk] at hh
        simp only [hnm] at hh
        obtain ⟨encs, hfa2, hflat⟩ := optionConcatMap_eq hh
        subst hflat
        have hfa := round_array_elems ih hwfi hmin hfa2 hc2
        simp only [List.append_nil]
        rw [unpack_last_array (Nat.succ_pos m) hlenN hv hbo hfa,
          dictInsert_take hnd hg]
        exact ⟨none, rfl, by
          intro h0
          rw [h0] at hfl
          exact absurd hfl (by simp)⟩
      | vBool b => exact absurd hc.2 (by simp)
      | vHex s => exact absurd hc.2 (by simp)
      | vInt x => exact absurd hc.2 (by simp)
      | vStr s => exact absurd hc.2 (by simp)
      | vBytes l => exact absurd hc.2 (by simp)
      | vObject kvs => exact absurd hc.2 (by simp)
      | vEnum e1 e2 e3 => exact absurd hc.2 (by simp)

theorem round_cons_tSelect {env : Catalog} {n : Nat} (ih : RoundIH env n)
    {flag : Bool} {var : String} {cases : List SelectCase} {ts : List Template}
    {params : Params} {i j : Nat} {bs rest : List Nat}
    (hwf : wfTemplates env flag (n + 1) (.tSelect var cases :: ts) = true)
    (hnd : keysNodupB params = true)
    (hfit : fitsTemplates env (n + 1) params i (.tSelect var cases :: ts) = some j)
    (hpk : packParameters env (n + 1) params (.tSelect var cases :: ts) = some bs)
    (hre : flag = true → rest = []) :
    ∃ d, unpackParameters env (n + 1) (params.take i) (some (bs ++ rest))
        (.tSelect var cases :: ts) = some (params.take j, d) ∧
      (flag = false → d = some rest) := by
  simp only [wfTemplates, Bool.and_eq_true] at hwf
  have hwf1 : (cases.all fun c =>
      match c with
      | .scase _ ps => wfTemplates env false n ps
      | .sdefault ps => wfTemplates env false n ps) = true := hwf.1
  have hwft : wfTemplates env flag n ts = true := hwf.2
  obtain ⟨head, restbs, hh, hr, rfl⟩ := packParameters_cons_inv hpk
  obtain ⟨j', hstep, hfit2⟩ := fitsTemplates_cons_inv hfit
  rw [List.append_assoc]
  simp only [fitsStep] at hstep
  rcases hlk0 : dictLookup (params.take i) var with _ | pv
  · simp only [hlk0] at hstep
    exact absurd hstep (by simp)
  · simp only [hlk0] at hstep
    have hlkf : dictLookup params var = some pv := dictLookup_take hlk0
    simp only [packHead] at hh
    rw [hlkf] at hh
    simp only at hh
    rcases hres : resolveCases (caseNameOf pv) none cases with _ | branch
    · -- no case matches: both sides skip the select entirely
      rw [hres] at hstep hh
      simp only [Option.some.injEq] at hstep hh
      have hj' : j' = i := hstep.symm
      subst hj'
      have hhead : head = [] := hh.symm
      subst hhead
      rw [unpackParameters_cons]
      simp only [unpackStep, hlk0, hres]
      simp only [List.nil_append]
      exact ih hwft hnd hfit2 hr hre
    · -- a branch is selected: recurse into it, then continue
      rw [hres] at hstep hh
      simp only at hstep hh
      have hwfbr : wfTemplates env false n branch = true := by
        rcases resolveCases_mem hres with ⟨names, hmem⟩ | hmem | habs
        · have := List.all_eq_true.mp hwf1 _ hmem
          exact this
        · have := List.all_eq_true.mp hwf1 _ hmem
          exact this
        · exact absurd habs (by simp)
      obtain ⟨d1, hu1, hd1⟩ := ih (g := false) (r := restbs ++ rest)
        hwfbr hnd hstep hh (by intro h0; exact absurd h0 (by simp))
      have hd2 : d1 = some (restbs ++ rest) := hd1 rfl
      subst hd2
      rw [unpackParameters_cons]
      simp only [unpackStep, hlk0, hres]
      simp only [hu1]
      exact ih hwft hnd hfit2 hr hre

theorem round_cons_tRef {env : Catalog} {n : Nat} (ih : RoundIH env n)
    {flag : Bool} {rname : String} {ts : List Template}
    {params : Params} {i j : Nat} {bs rest : List Nat}
    (hwf : wfTemplates env flag (n + 1) (.tRef rname :: ts) = true)
    (hnd : keysNodupB params = true)
    (hfit : fitsTemplates env (n + 1) params i (.tRef rname :: ts) = some j)
    (hpk : packParameters env (n + 1) params (.tRef rname :: ts) = some bs)
    (hre : flag = true → rest = []) :
    ∃ d, unpackParameters env (n + 1) (params.take i) (some (bs ++ rest))
        (.tRef rname :: ts) = some (params.take j, d) ∧
      (flag = false → d = some rest) := by
  simp only [wfTemplates, Bool.and_eq_true] at hwf
  have hwf1 : (match lookupDefinition env rname with
      | some frag => wfTemplates env false n frag
      | none => false) = true := hwf.1
  have hwft : wfTemplates env flag n ts = true := hwf.2
  obtain ⟨head, restbs, hh, hr, rfl⟩ := packParameters_cons_inv hpk
  obtain ⟨j', hstep, hfit2⟩ := fitsTemplates_cons_inv hfit
  rw [List.append_assoc]
  rcases hdef : lookupDefinition env rname with _ | frag
  · rw [hdef] at hwf1
    exact absurd hwf1 (by simp)
  · rw [hdef] at hwf1
    simp only [fitsStep, hdef] at hstep
    simp only [packHead, hdef] at hh
    obtain ⟨d1, hu1, hd1⟩ := ih (g := false) (r := restbs ++ rest)
      hwf1 hnd hstep hh (by intro h0; exact absurd h0 (by simp))
    have hd2 : d1 = some (restbs ++ rest) := hd1 rfl
    subst hd2
    rw [unpackParameters_cons]
    simp only [unpackStep, hdef]
    simp only [hu1]
    exact ih hwft hnd hfit2 hr hre

/-- The codec round trip: at any sufficient fuel, decoding what
`_pack_parameters` produced for a well-formed template list and a fitting
parameter dict recovers the dict exactly and returns the unconsumed
residue. -/

theorem packUnpackRound (env : Catalog) : ∀ n : Nat, RoundIH env n := by
  intro n
  induction n with
  | zero =>
    intro flag ts params i j bs rest hwf hnd hfit hpk hre
    simp [wfTemplates] at hwf
  | succ n ih =>
    intro flag ts params i j bs rest hwf hnd hfit hpk hre
    cases ts with
    | nil => exact round_nil hfit hpk
    | cons t ts2 =>
      cases t with
      | tBool a => exact round_cons_tBool ih hwf hnd hfit hpk hre
      | tInt a => exact round_cons_tInt ih hwf hnd hfit hpk hre
      | tStr a => exact round_cons_tStr ih hwf hnd hfit hpk hre
      | tHex a => exact round_cons_tHex ih hwf hnd hfit hpk hre
      | tBytes a => exact round_cons_tBytes ih hwf hnd hfit hpk hre
      | tObject a props => exact round_cons_tObject ih hwf hnd hfit hpk hre
      | tArray a items => exact round_cons_tArray ih hwf hnd hfit hpk hre
      | tEnum etype a => exact round_cons_tEnum ih hwf hnd hfit hpk hre
      | tSelect var scs => exact round_cons_tSelect ih hwf hnd hfit hpk hre
      | tRef rname => exact round_cons_tRef ih hwf hnd hfit hpk hre

/-! ## C2: byte stuffing is invertible -/

theorem unescapeAux_escape (bs : List Nat) :
    unescapeAux false (escape bs) = bs := by
  induction bs with
  | nil => rfl
  | cons b rest ih =>
    by_cases hb : b = 0x7d ∨ b = 0x7e
    · rw [escape, if_pos hb]
      simp only [unescapeAux]
      rw [if_pos trivial]
      rw [Nat.xor_assoc]
      simp only [Nat.xor_self, Nat.xor_zero]
      rw [ih]
    · rw [escape, if_neg hb]
      simp only [unescapeAux]
      rw [if_neg (fun h => hb (Or.inl h)), ih]

/-- C2: escaping inverse law — for every byte sequence `x`, including
sequences containing `0x7D` and `0x7E`,
`SR920Protocol._unescape(SR920Protocol._escape(x)) == x`. -/

theorem escape_unescape_inverse : ∀ bs : List Nat, unescape (escape bs) = bs :=
  fun bs => unescapeAux_escape bs

/-! ## C3: the outbound frame format -/

/-- C3: every frame the writer loop writes for a dequeued command is
exactly `0xFF × 7`, `0x7E`, `0x7E`, the escaped command bytes, `0x7E`,
where the command bytes are the 2-byte big-endian command id followed by
the field-template-encoded parameter bytes. -/

theorem outbound_frame_format {env : Catalog} {n : Nat} {nm : String}
    {v : Nat} {params : Params} {ts : List Template} {pbs : List Nat}
    (hcmd : lookupCommand env nm = some (some ts))
    (hpk : packParameters env n params ts = some pbs) :
    commandToBytes env n nm v params = some (natToBE v 2 ++ pbs) ∧
    writerFrame (natToBE v 2 ++ pbs) =
      List.replicate 7 0xff ++ [0x7e] ++ [0x7e] ++
        escape (natToBE v 2 ++ pbs) ++ [0x7e] := by
  constructor
  · simp only [commandToBytes, hcmd, hpk]
  · simp only [writerFrame, List.append_assoc]

theorem outbound_frame_format_witness :
    lookupCommand catalogReadConfig "READ_CONFIG_REQUEST" =
      some (some [Template.tEnum "SR920ConfigId"
        { name := "config_id", length := some 1, byteorder := .big,
          signed := false, value := none, trueValue := none,
          falseValue := none }]) ∧
    (commandToBytes catalogReadConfig 2 "READ_CONFIG_REQUEST" 0x0780
        paramsReadConfig = some (natToBE 0x0780 2 ++ [2]) ∧
      writerFrame (natToBE 0x0780 2 ++ [2]) =
        List.replicate 7 0xff ++ [0x7e] ++ [0x7e] ++
          escape (natToBE 0x0780 2 ++ [2]) ++ [0x7e]) :=
  ⟨rfl, outbound_frame_format rfl rfl⟩

/-! ## C7: unrecognized command id on decode is non-fatal -/

/-- C7: when the leading 2-byte command id maps to a known command id
whose mnemonic has no payload template in the catalog, `parse` returns
that command id with an empty parameter mapping rather than failing. -/

theorem parse_unknown_template_nonfatal {env : Catalog} {n : Nat}
    {data : List Nat} {nm : String}
    (hid : commandIdOfValue (beNat (data.take 2)) = some nm)
    (hcmd : lookupCommand env nm = none) :
    commandParse env n data = some (nm, []) := by
  simp only [commandParse, hid, hcmd]

theorem parse_unknown_template_nonfatal_witness :
    commandIdOfValue (beNat (([0x07, 0xF1] : List Nat).take 2)) =
      some "RESET_RESPONSE" ∧
    lookupCommand catalogEmpty "RESET_RESPONSE" = none ∧
    commandParse catalogEmpty 1 [0x07, 0xF1] = some ("RESET_RESPONSE", []) :=
  ⟨rfl, rfl, parse_unknown_template_nonfatal rfl rfl⟩

/-! ## C4: bounded retry, then `None` -/

theorem attemptPoll_nomatch {reqParams : Params} {rid : Nat}
    {rounds : List (List Cmd)}
    (h : ∀ buf ∈ rounds, scanBuffer reqParams rid buf = some none) :
    attemptPoll reqParams rid rounds = some none := by
  induction rounds with
  | nil => rfl
  | cons buf later ih =>
    have hb : scanBuffer reqParams rid buf = some none :=
      h buf (by simp)
    simp only [attemptPoll, hb]
    exact ih fun b hb2 => h b (by simp [hb2])

/-- C4: when no buffered command ever matches the expected response id
during any polling round, `get_response` performs exactly `retry + 1`
sends of the identical request in total and returns `None`. -/

theorem bounded_retry_then_none {reqParams : Params} {rid : Nat}
    {polls : Nat → List (List Cmd)} {retry k : Nat}
    (h : ∀ a, ∀ buf ∈ polls a, scanBuffer reqParams rid buf = some none) :
    getResponseModel reqParams rid polls retry k = some (none, retry + 1) := by
  induction retry generalizing k with
  | zero =>
    simp only [getResponseModel, attemptPoll_nomatch (h k)]
  | succ r ih =>
    simp only [getResponseModel, attemptPoll_nomatch (h k), @ih (k + 1)]

theorem bounded_retry_then_none_witness :
    (∀ a : Nat, ∀ buf ∈ [([] : List Cmd)],
      scanBuffer [] 0x0781 buf = some none) ∧
    getResponseModel [] 0x0781 (fun _ => [[]]) 2 0 = some (none, 3) :=
  ⟨fun _ buf hb => by
      simp only [List.mem_singleton] at hb
      subst hb
      rfl,
    bounded_retry_then_none fun _ buf hb => by
      simp only [List.mem_singleton] at hb
      subst hb
      rfl⟩

/-! ## C1: the codec round trip at command level -/

/-- C1: for every command id with a `parameters` template in the
catalog (well formed, with the dict supplying exactly the non-constant
fields the template requires), parsing `to_bytes` of the command yields
the same command id and the identical parameter dict; constant-`value`
fields are replayed from the template during encode and skipped during
decode, and `enum:` fields round-trip through their member name and
value. -/

theorem codec_round_trip {env : Catalog} {n : Nat} {nm : String} {v : Nat}
    {ts : List Template} {params : Params} {pbs : List Nat}
    (hv : v < 65536)
    (hid : commandIdOfValue v = some nm)
    (hcmd : lookupCommand env nm = some (some ts))
    (hwf : wfTemplates env true n ts = true)
    (hnd : keysNodupB params = true)
    (hfit : fitsTemplates env n params 0 ts = some params.length)
    (hpk : packParameters env n params ts = some pbs)
    (hne : pbs ≠ []) :
    commandToBytes env n nm v params = some (natToBE v 2 ++ pbs) ∧
    commandParse env n (natToBE v 2 ++ pbs) = some (nm, params) := by
  have hlen2 : (natToBE v 2).length = 2 := natToBE_length v 2
  obtain ⟨htake, hdrop⟩ := take_append_of_length pbs hlen2
  constructor
  · simp only [commandToBytes, hcmd, hpk]
  · have hv2 : v < 256 ^ 2 := by
      have h2 : (256 : Nat) ^ 2 = 65536 := by norm_num
      rw [h2]
      exact hv
    have hbe : beNat (natToBE v 2) = v := beNat_natToBE hv2
    have hlen : (natToBE v 2 ++ pbs).length > 2 := by
      rw [List.length_append, hlen2]
      cases pbs with
      | nil => exact absurd rfl hne
      | cons x xs => simp
    obtain ⟨d, hu, _⟩ := packUnpackRound env n (g := true) (r := [])
      hwf hnd hfit hpk (fun _ => rfl)
    rw [List.take_zero, List.take_length, List.append_nil] at hu
    simp only [commandParse, htake, hbe, hid, hcmd]
    rw [if_pos hlen]
    rw [hdrop]
    simp only [hu]

theorem codec_round_trip_witness :
    (0x0780 < 65536 ∧
      commandIdOfValue 0x0780 = some "READ_CONFIG_REQUEST" ∧
      fitsTemplates catalogReadConfig 2 paramsReadConfig 0
        [Template.tEnum "SR920ConfigId"
          { name := "config_id", length := some 1, byteorder := .big,
            signed := false, value := none, trueValue := none,
            falseValue := none }] = some paramsReadConfig.length) ∧
    commandToBytes catalogReadConfig 2 "READ_CONFIG_REQUEST" 0x0780
        paramsReadConfig = some (natToBE 0x0780 2 ++ [2]) ∧
    commandParse catalogReadConfig 2 (natToBE 0x0780 2 ++ [2]) =
      some ("READ_CONFIG_REQUEST", paramsReadConfig) :=
  ⟨⟨by decide, rfl, rfl⟩,
    codec_round_trip (by decide) rfl rfl rfl rfl rfl rfl (by decide)⟩

theorem scan_shift {o : Option (Option (Cmd × List Cmd))} {a c : Cmd}
    {buf2 : List Cmd} :
    o.map (Option.map fun p => (p.1, a :: p.2)) = some (some (c, buf2)) ↔
      ∃ b2, o = some (some (c, b2)) ∧ buf2 = a :: b2 := by
  cases o with
  | none => simp
  | some o2 =>
    cases o2 with
    | none => simp
    | some p =>
      obtain ⟨c2, b2⟩ := p
      simp only [Option.map_some']
      constructor
      · intro h
        injection h with h1
        injection h1 with h2
        injection h2 with h3 h4
        exact ⟨b2, by rw [h3], h4.symm⟩
      · rintro ⟨b3, ho, hb⟩
        injection ho with h1
        injection h1 with h2
        injection h2 with h3 h4
        subst hb
        rw [h3, h4]

/-- C5: during `get_response`, a buffered command is accepted (removed
from the buffer and returned) exactly when it is the first candidate
whose id equals the expected response id and whose `seq_no`, when
present, equals the request's; earlier candidates — including those
whose id matches but whose `seq_no` differs — are left in the buffer. -/

theorem response_matching_rule {reqParams : Params} {rid : Nat}
    {reqSeq : PValue} {buf : List Cmd} {c : Cmd} {buf2 : List Cmd}
    (hreq : dictLookup reqParams "seq_no" = some reqSeq) :
    scanBuffer reqParams rid buf = some (some (c, buf2)) ↔
      ∃ pre post,
        buf = pre ++ c :: post ∧ buf2 = pre ++ post ∧
        matchesResponse reqSeq rid c ∧
        ∀ b ∈ pre, ¬matchesResponse reqSeq rid b := by
  induction buf generalizing buf2 with
  | nil =>
    simp only [scanBuffer]
    constructor
    · intro h
      exact absurd h (by simp)
    · intro h
      obtain ⟨pre, post, hbuf, _⟩ := h
      exact absurd hbuf (by simp)
  | cons a rest ih =>
    simp only [scanBuffer]
    rcases hcid : a.cid == rid with _ | _
    · -- id does not match: the scan shifts over `a`
      simp only [Bool.false_eq_true, if_false, scan_shift]
      have hna : ¬matchesResponse reqSeq rid a := by
        intro hm
        rw [hm.1] at hcid
        simp at hcid
      constructor
      · intro h
        obtain ⟨b2, hsc, hb⟩ := h
        obtain ⟨pre, post, hbuf, hb2, hmc, hpre⟩ := ih.mp hsc
        refine ⟨a :: pre, post, by rw [hbuf]; rfl, by rw [hb, hb2]; rfl, hmc, ?_⟩
        intro b hb3
        rcases List.mem_cons.mp hb3 with hb4 | hb4
        · rw [hb4]; exact hna
        · exact hpre b hb4
      · intro h
        obtain ⟨pre, post, hbuf, hb2, hmc, hpre⟩ := h
        cases pre with
        | nil =>
          simp only [List.nil_append] at hbuf
          injection hbuf with hac hrp
          rw [hac] at hna
          exact absurd hmc hna
        | cons p pre2 =>
          simp only [List.cons_append] at hbuf
          injection hbuf with hap hrest
          refine ⟨pre2 ++ post, ih.mpr ⟨pre2, post, hrest, rfl, hmc, ?_⟩, ?_⟩
          · intro b hb3
            exact hpre b (by simp [hb3])
          · rw [hb2, hap]
            rfl
    · -- id matches: inspect the candidate's seq_no
      have hacid : a.cid = rid := by simpa using hcid
      rcases hsr : dictLookup a.params "seq_no" with _ | resSeq
      · -- no seq_no on the candidate: accepted
        show some (some (a, rest)) = some (some (c, buf2)) ↔ _
        have hma : matchesResponse reqSeq rid a := by
          refine ⟨hacid, ?_⟩
          intro s hs
          rw [hsr] at hs
          exact absurd hs (by simp)
        constructor
        · intro h
          injection h with h1
          injection h1 with h2
          injection h2 with hac hb
          subst hac
          exact ⟨[], rest, rfl, hb.symm, hma, by simp⟩
        · intro h
          obtain ⟨pre, post, hbuf, hb2, hmc, hpre⟩ := h
          cases pre with
          | nil =>
            simp only [List.nil_append] at hbuf hb2
            injection hbuf with hac hrp
            rw [hac, hrp, hb2]
          | cons p pre2 =>
            simp only [List.cons_append] at hbuf
            injection hbuf with hap hrest
            exact absurd hma (by rw [hap]; exact hpre p (by simp))
      · -- the candidate carries seq_no: compare with the request's
        rw [hreq]
        show (if PValue.beq reqSeq resSeq = true then some (some (a, rest))
            else (scanBuffer reqParams rid rest).map
              (Option.map fun p => (p.1, a :: p.2))) = some (some (c, buf2)) ↔ _
        rcases hbe : PValue.beq reqSeq resSeq with _ | _
        · -- differing seq_no: left in the buffer, scan continues
          simp only [Bool.false_eq_true, if_false, scan_shift]
          have hna : ¬matchesResponse reqSeq rid a := by
            intro hm
            have := hm.2 resSeq hsr
            rw [this] at hbe
            exact absurd hbe (by simp)
          constructor
          · intro h
            obtain ⟨b2, hsc, hb⟩ := h
            obtain ⟨pre, post, hbuf, hb2, hmc, hpre⟩ := ih.mp hsc
            refine ⟨a :: pre, post, by rw [hbuf]; rfl,
              by rw [hb, hb2]; rfl, hmc, ?_⟩
            intro b hb3
            rcases List.mem_cons.mp hb3 with hb4 | hb4
            · rw [hb4]; exact hna
            · exact hpre b hb4
          · intro h
            obtain ⟨pre, post, hbuf, hb2, hmc, hpre⟩ := h
            cases pre with
            | nil =>
              simp only [List.nil_append] at hbuf
              injection hbuf with hac hrp
              rw [hac] at hna
              exact absurd hmc hna
            | cons p pre2 =>
              simp only [List.cons_append] at hbuf
              injection hbuf with hap hrest
              refine ⟨pre2 ++ post,
                ih.mpr ⟨pre2, post, hrest, rfl, hmc, ?_⟩, ?_⟩
              · intro b hb3
                exact hpre b (by simp [hb3])
              · rw [hb2, hap]
                rfl
        · -- agreeing seq_no: accepted
          show some (some (a, rest)) = some (some (c, buf2)) ↔ _
          have hma : matchesResponse reqSeq rid a := by
            refine ⟨hacid, ?_⟩
            intro s hs
            rw [hsr] at hs
            injection hs with h1
            rw [← h1]
            exact hbe
          constructor
          · intro h
            injection h with h1
            injection h1 with h2
            injection h2 with hac hb
            subst hac
            exact ⟨[], rest, rfl, hb.symm, hma, by simp⟩
          · intro h
            obtain ⟨pre, post, hbuf, hb2, hmc, hpre⟩ := h
            cases pre with
            | nil =>
              simp only [List.nil_append] at hbuf hb2
              injection hbuf with hac hrp
              rw [hac, hrp, hb2]
            | cons p pre2 =>
              simp only [List.cons_append] at hbuf
              injection hbuf with hap hrest
              exact absurd hma (by rw [hap]; exact hpre p (by simp))

theorem response_matching_rule_witness :
    dictLookup [("seq_no", PValue.vInt 5)] "seq_no" = some (PValue.vInt 5) ∧
    (scanBuffer [("seq_no", PValue.vInt 5)] 0x0331
        [Cmd.mk 0x0331 [("seq_no", PValue.vInt 4)],
         Cmd.mk 0x0331 [("seq_no", PValue.vInt 5)]]
      = some (some (Cmd.mk 0x0331 [("seq_no", PValue.vInt 5)],
          [Cmd.mk 0x0331 [("seq_no", PValue.vInt 4)]])) ↔
      ∃ pre post,
        [Cmd.mk 0x0331 [("seq_no", PValue.vInt 4)],
         Cmd.mk 0x0331 [("seq_no", PValue.vInt 5)]] =
          pre ++ Cmd.mk 0x0331 [("seq_no", PValue.vInt 5)] :: post ∧
        [Cmd.mk 0x0331 [("seq_no", PValue.vInt 4)]] = pre ++ post ∧
        matchesResponse (PValue.vInt 5) 0x0331
          (Cmd.mk 0x0331 [("seq_no", PValue.vInt 5)]) ∧
        ∀ b ∈ pre, ¬matchesResponse (PValue.vInt 5) 0x0331 b) :=
  ⟨rfl, response_matching_rule rfl⟩

/-! ## C10: the unguarded `request.parameters["seq_no"]` access -/

/-- C10 (counterexample to the claim as stated): a request without
`seq_no` and a buffer that does contain an id-matching candidate
carrying `seq_no` — yet the scan accepts an earlier id-matching
candidate that has no `seq_no`, so no `KeyError` is raised. -/

theorem seq_no_keyerror_counterexample :
    dictLookup ([] : Params) "seq_no" = none ∧
    (∃ b ∈ [Cmd.mk 0x0331 [], Cmd.mk 0x0331 [("seq_no", PValue.vInt 1)]],
      b.cid = 0x0331 ∧ (dictLookup b.params "seq_no").isSome = true) ∧
    scanBuffer [] 0x0331
        [Cmd.mk 0x0331 [], Cmd.mk 0x0331 [("seq_no", PValue.vInt 1)]] ≠
      none :=
  ⟨rfl,
    ⟨Cmd.mk 0x0331 [("seq_no", PValue.vInt 1)], by simp, rfl, rfl⟩,
    by
      intro h
      rw [show scanBuffer [] 0x0331
          [Cmd.mk 0x0331 [], Cmd.mk 0x0331 [("seq_no", PValue.vInt 1)]] =
          some (some (Cmd.mk 0x0331 [],
            [Cmd.mk 0x0331 [("seq_no", PValue.vInt 1)]])) from rfl] at h
      exact Option.noConfusion h⟩

/-- C10 (amended): when the request's parameters lack `seq_no`, the
unguarded `request.parameters["seq_no"]` access raises `KeyError`
exactly when the scan reaches a `seq_no`-carrying candidate — that is,
whenever the first candidate whose id matches the expected response id
carries a `seq_no` field. -/

theorem seq_no_keyerror_amended {reqParams : Params} {rid : Nat}
    {pre post : List Cmd} {c : Cmd}
    (hreq : dictLookup reqParams "seq_no" = none)
    (hpre : ∀ b ∈ pre, b.cid ≠ rid)
    (hc : c.cid = rid)
    (hseq : (dictLookup c.params "seq_no").isSome = true) :
    scanBuffer reqParams rid (pre ++ c :: post) = none := by
  induction pre with
  | nil =>
    obtain ⟨s, hs⟩ := Option.isSome_iff_exists.mp hseq
    simp only [List.nil_append, scanBuffer, hs, hreq]
    rw [if_pos (by simp [hc])]
  | cons a pre2 ih =>
    have hna : (a.cid == rid) = false := by
      simp only [beq_eq_false_iff_ne, ne_eq]
      exact hpre a (by simp)
    simp only [List.cons_append, scanBuffer, hna, Bool.false_eq_true, if_false]
    have hih := ih fun b hb => hpre b (by simp [hb])
    simp only [List.append_eq]
    rw [hih]
    rfl

theorem seq_no_keyerror_amended_witness :
    dictLookup ([] : Params) "seq_no" = none ∧
    scanBuffer [] 0x0331
        ([] ++ Cmd.mk 0x0331 [("seq_no", PValue.vInt 1)] :: []) = none :=
  ⟨rfl, seq_no_keyerror_amended rfl (by simp) rfl rfl⟩

/-! ## C6: notification classification -/

/-- C6: a delivered command whose mnemonic ends in `NOTIFICATION` is
handed to the notification handler and never appended to the pending
buffer; every other command is appended under the lock — so a buffer
free of notification-suffixed commands stays that way. -/

theorem notification_classification {buffer : List (String × Params)}
    {c : String × Params}
    (hinv : ∀ b ∈ buffer, strEndsWith b.1 "NOTIFICATION" = false) :
    (strEndsWith c.1 "NOTIFICATION" = true →
      onCommandReceived buffer c = (buffer, true)) ∧
    (strEndsWith c.1 "NOTIFICATION" = false →
      onCommandReceived buffer c = (buffer ++ [c], false)) ∧
    (∀ b ∈ (onCommandReceived buffer c).1,
      strEndsWith b.1 "NOTIFICATION" = false) := by
  refine ⟨?_, ?_, ?_⟩
  · intro h
    simp [onCommandReceived, h]
  · intro h
    simp [onCommandReceived, h]
  · rcases he : strEndsWith c.1 "NOTIFICATION" with _ | _
    · intro b hb
      simp only [onCommandReceived, he, Bool.false_eq_true, if_false] at hb
      rcases List.mem_append.mp hb with hb2 | hb2
      · exact hinv b hb2
      · simp only [List.mem_singleton] at hb2
        rw [hb2]
        exact he
    · intro b hb
      simp only [onCommandReceived, he, if_true] at hb
      exact hinv b hb

theorem notification_classification_witness :
    (∀ b ∈ [(("READ_CONFIG_RESPONSE" : String), ([] : Params))],
      strEndsWith b.1 "NOTIFICATION" = false) ∧
    ((strEndsWith "DATA_RECEIVED_NOTIFICATION" "NOTIFICATION" = true →
      onCommandReceived [("READ_CONFIG_RESPONSE", [])]
          ("DATA_RECEIVED_NOTIFICATION", []) =
        ([("READ_CONFIG_RESPONSE", [])], true)) ∧
     (strEndsWith "DATA_RECEIVED_NOTIFICATION" "NOTIFICATION" = false →
      onCommandReceived [("READ_CONFIG_RESPONSE", [])]
          ("DATA_RECEIVED_NOTIFICATION", []) =
        ([("READ_CONFIG_RESPONSE", []),
          ("DATA_RECEIVED_NOTIFICATION", [])], false)) ∧
     (∀ b ∈ (onCommandReceived [("READ_CONFIG_RESPONSE", [])]
          ("DATA_RECEIVED_NOTIFICATION", [])).1,
       strEndsWith b.1 "NOTIFICATION" = false)) :=
  ⟨by
      intro b hb
      rcases List.mem_cons.mp hb with h | h
      · subst h
        decide
      · exact absurd h (by simp),
    @notification_classification [("READ_CONFIG_RESPONSE", [])]
      ("DATA_RECEIVED_NOTIFICATION", []) (by
      intro b hb
      rcases List.mem_cons.mp hb with h | h
      · subst h
        decide
      · exact absurd h (by simp))⟩

/-! ## C8: node-list pagination -/

/-- C8: whenever every page before the terminal one carries
`result = 1` and a partial node list and the terminal page carries
`result = 0`, each `result = 1` page triggers the follow-up request
with `seq_no + 1`, and the returned list is the in-order concatenation
of all the pages' `node_list` fields. -/

theorem pagination_concat {pages : Nat → Option (Nat × List PValue)} :
    ∀ {pls : List (List PValue)} {s fuel : Nat} {last : List PValue},
      (∀ t (ht : t < pls.length), pages (s + t) = some (1, pls.get ⟨t, ht⟩)) →
      pages (s + pls.length) = some (0, last) →
      pls.length < fuel →
      getNodeListModel pages fuel s = some (some (pls.flatten ++ last)) := by
  intro pls
  induction pls with
  | nil =>
    intro s fuel last _ hlast hfuel
    obtain ⟨f, rfl⟩ : ∃ f, fuel = f + 1 := ⟨fuel - 1, by omega⟩
    have hl : pages s = some (0, last) := by simpa using hlast
    simp only [getNodeListModel, hl, if_pos rfl]
    simp
  | cons L pls2 ih =>
    intro s fuel last hpg hlast hfuel
    obtain ⟨f, rfl⟩ : ∃ f, fuel = f + 1 :=
      ⟨fuel - 1, by simp at hfuel; omega⟩
    have h0 : pages s = some (1, L) := by
      have := hpg 0 (by simp)
      simpa using this
    have hrec : getNodeListModel pages f (s + 1) =
        some (some (pls2.flatten ++ last)) := by
      apply ih
      · intro t ht
        have := hpg (t + 1) (by simp; omega)
        rw [show s + (t + 1) = s + 1 + t by omega] at this
        simpa using this
      · rw [show s + 1 + pls2.length = s + (L :: pls2).length by simp; omega]
        exact hlast
      · simp at hfuel
        omega
    simp only [getNodeListModel, h0]
    rw [if_pos trivial, hrec]
    simp [List.append_assoc]

theorem pagination_concat_witness :
    (∀ t (ht : t < ([[PValue.vInt 10]] : List (List PValue)).length),
      pagesDemo (1 + t) =
        some (1, ([[PValue.vInt 10]] : List (List PValue)).get ⟨t, ht⟩)) ∧
    pagesDemo (1 + ([[PValue.vInt 10]] : List (List PValue)).length) =
      some (0, [PValue.vInt 20]) ∧
    getNodeListModel pagesDemo 3 1 =
      some (some [PValue.vInt 10, PValue.vInt 20]) :=
  ⟨fun t ht => by
      have h0 : t = 0 := by simpa using ht
      subst h0
      rfl,
    rfl,
    @pagination_concat pagesDemo [[PValue.vInt 10]] 1 3 [PValue.vInt 20]
      (fun t ht => by
        have h0 : t = 0 := by simpa using ht
        subst h0
        rfl)
      rfl
      (by decide)⟩

/-! ## C9: firmware-update abort ordering -/

theorem writeLoop_steps {env : UStep → Option (Nat × List Nat)} :
    ∀ {cs : List (List Nat)} {ft s p : Nat} {st : UStep},
      st ∈ (writeLoop env cs ft s p).1 → ∃ a b c, st = UStep.write a b c := by
  intro cs
  induction cs with
  | nil =>
    intro ft s p st h
    simp [writeLoop] at h
  | cons c2 rest ih =>
    intro ft s p st h
    simp only [writeLoop] at h
    rcases hk : statusOk (env (UStep.write s (ft / 64) (ft % 64))) with _ | _
    · rw [hk] at h
      simp only [List.mem_singleton] at h
      exact ⟨s, ft / 64, ft % 64, h⟩
    · rw [hk] at h
      rcases hw : writeLoop env rest (ft + 1) ((s + 1) % 65536) (ft / 64) with
        ⟨tr2, s2, p2, ok2⟩
      rw [hw] at h
      simp only [List.mem_cons] at h
      rcases h with h2 | h2
      · exact ⟨s, ft / 64, ft % 64, h2⟩
      · exact ih (by rw [hw]; exact h2)

theorem writeLoop_ok {env : UStep → Option (Nat × List Nat)} :
    ∀ {cs : List (List Nat)} {ft s p : Nat},
      (writeLoop env cs ft s p).2.2.2 = true →
      ∀ st ∈ (writeLoop env cs ft s p).1, statusOk (env st) = true := by
  intro cs
  induction cs with
  | nil =>
    intro ft s p _ st h
    simp [writeLoop] at h
  | cons c2 rest ih =>
    intro ft s p hok st h
    simp only [writeLoop] at h hok
    rcases hk : statusOk (env (UStep.write s (ft / 64) (ft % 64))) with _ | _
    · rw [hk] at hok
      simp at hok
    · rw [hk] at h hok
      rcases hw : writeLoop env rest (ft + 1) ((s + 1) % 65536) (ft / 64) with
        ⟨tr2, s2, p2, ok2⟩
      rw [hw] at h hok
      simp only [List.mem_cons] at h
      rcases h with h2 | h2
      · rw [h2]
        exact hk
      · exact ih (by rw [hw]; exact hok) st (by rw [hw]; exact h2)

theorem updateFromStart_props {env : UStep → Option (Nat × List Nat)}
    {data version : List Nat} {s1 : Nat} {tr1 : List UStep} {ok : Bool}
    (hfs : updateFromStart env data version s1 = (tr1, ok)) :
    AbortProps env tr1 ok := by
  rcases hstart : statusOk (env (UStep.start s1)) with _ | _
  · -- START failed: the trace is just the START step
    rw [updateFromStart, hstart] at hfs
    simp only [Bool.false_eq_true, if_false] at hfs
    injection hfs with h1 h2
    subst h1
    subst h2
    refine ⟨?_, ?_, ?_⟩
    · intro s _ _
      refine ⟨?_, rfl⟩
      intro a b c hw
      simp at hw
    · intro s p f hw
      simp at hw
    · intro s p hc
      simp at hc
  · -- START succeeded
    rw [updateFromStart, hstart] at hfs
    simp only [if_true] at hfs
    rcases hw : writeLoop env (chunks1024 (data.length + 1) data) 0
        ((s1 + 1) % 65536) 0 with ⟨trW, s2, lastPage, okW⟩
    rw [hw] at hfs
    have hWst : ∀ st ∈ trW, ∃ a b c, st = UStep.write a b c := by
      intro st h
      exact writeLoop_steps (by rw [hw]; exact h)
    rcases hokW : okW with _ | _
    · -- a WRITE failed: the trace stops at the writes
      rw [hokW] at hfs
      simp only [Bool.false_eq_true, if_false] at hfs
      injection hfs with h1 h2
      subst h1
      subst h2
      refine ⟨?_, ?_, ?_⟩
      · intro s hs hf
        rcases List.mem_cons.mp hs with h2 | h2
        · injection h2 with h3
          subst h3
          rw [hstart] at hf
          exact absurd hf (by simp)
        · obtain ⟨a, b, c, hc⟩ := hWst _ h2
          exact absurd hc (by simp)
      · intro s p f _ _
        refine ⟨?_, rfl⟩
        intro q hq
        rcases List.mem_cons.mp hq with h2 | h2
        · exact absurd h2 (by simp)
        · obtain ⟨a, b, c, hc⟩ := hWst _ h2
          exact absurd hc (by simp)
      · intro s p hc2
        rcases List.mem_cons.mp hc2 with h2 | h2
        · exact absurd h2 (by simp)
        · obtain ⟨a, b, c, hc⟩ := hWst _ h2
          exact absurd hc (by simp)
    · -- every WRITE succeeded
      rw [hokW] at hfs
      simp only [if_true] at hfs
      have hWok : ∀ st ∈ trW, statusOk (env st) = true := by
        intro st h
        exact writeLoop_ok (by rw [hw, hokW]) st (by rw [hw]; exact h)
      rcases hcheck : statusOk (env (UStep.check s2 lastPage)) with _ | _
      · -- CHECK failed: the trace stops at CHECK, no RESET
        rw [hcheck] at hfs
        simp only [Bool.false_eq_true, if_false] at hfs
        injection hfs with h1 h2
        subst h1
        subst h2
        have hnr : ∀ q, UStep.reset q ∉
            UStep.start s1 :: trW ++ [UStep.check s2 lastPage] := by
          intro q hq
          rcases List.mem_cons.mp hq with h2 | h2
          · exact absurd h2 (by simp)
          · rcases List.mem_append.mp h2 with h3 | h3
            · obtain ⟨a, b, c, hc⟩ := hWst _ h3
              exact absurd hc (by simp)
            · simp at h3
        refine ⟨?_, ?_, ?_⟩
        · intro s hs hf
          rcases List.mem_cons.mp hs with h2 | h2
          · injection h2 with h3
            subst h3
            rw [hstart] at hf
            exact absurd hf (by simp)
          · rcases List.mem_append.mp h2 with h3 | h3
            · obtain ⟨a, b, c, hc⟩ := hWst _ h3
              exact absurd hc (by simp)
            · simp at h3
        · intro s p f hw2 hf
          rcases List.mem_cons.mp hw2 with h2 | h2
          · exact absurd h2 (by simp)
          · rcases List.mem_append.mp h2 with h3 | h3
            · rw [hWok _ h3] at hf
              exact absurd hf (by simp)
            · simp at h3
        · intro s p _ _
          exact ⟨hnr, rfl⟩
      · -- CHECK succeeded
        rw [hcheck] at hfs
        simp only [if_true] at hfs
        have hfinish : ∀ (post : List UStep) (ok2 : Bool),
            (∀ st ∈ post, (∀ a b c, st ≠ UStep.write a b c) ∧
              (∀ q, st ≠ UStep.start q) ∧
              (∀ s p, st = UStep.check s p → (s, p) = (s2, lastPage))) →
            tr1 = UStep.start s1 :: trW ++
              (UStep.check s2 lastPage :: post) →
            AbortProps env tr1 ok2 := by
          intro post ok2 hpost htr
          subst htr
          refine ⟨?_, ?_, ?_⟩
          · intro s hs hf
            rcases List.mem_cons.mp hs with h2 | h2
            · injection h2 with h3
              subst h3
              rw [hstart] at hf
              exact absurd hf (by simp)
            · rcases List.mem_append.mp h2 with h3 | h3
              · obtain ⟨a, b, c, hc⟩ := hWst _ h3
                exact absurd hc (by simp)
              · rcases List.mem_cons.mp h3 with h4 | h4
                · exact absurd h4 (by simp)
                · exact absurd rfl ((hpost _ h4).2.1 s)
          · intro s p f hw2 hf
            rcases List.mem_cons.mp hw2 with h2 | h2
            · exact absurd h2 (by simp)
            · rcases List.mem_append.mp h2 with h3 | h3
              · rw [hWok _ h3] at hf
                exact absurd hf (by simp)
              · rcases List.mem_cons.mp h3 with h4 | h4
                · exact absurd h4 (by simp)
                · exact absurd rfl ((hpost _ h4).1 s p f)
          · intro s p hc2 hf
            rcases List.mem_cons.mp hc2 with h2 | h2
            · exact absurd h2 (by simp)
            · rcases List.mem_append.mp h2 with h3 | h3
              · obtain ⟨a, b, c, hc⟩ := hWst _ h3
                exact absurd hc (by simp)
              · rcases List.mem_cons.mp h3 with h4 | h4
                · injection h4 with h5 h6
                  subst h5
                  subst h6
                  rw [hcheck] at hf
                  exact absurd hf (by simp)
                · have h7 := (hpost _ h4).2.2 s p rfl
                  injection h7 with h5 h6
                  subst h5
                  subst h6
                  rw [hcheck] at hf
                  exact absurd hf (by simp)
        rcases hreset : statusOk (env (UStep.reset ((s2 + 1) % 65536)))
            with _ | _
        · -- RESET failed
          rw [hreset] at hfs
          simp only [Bool.false_eq_true, if_false] at hfs
          injection hfs with h1 h2
          refine hfinish [UStep.reset ((s2 + 1) % 65536)] ok ?_ (by rw [← h1])
          intro st h
          have h3 := List.mem_singleton.mp h
          subst h3
          exact ⟨by intro a b c hc; exact absurd hc (by simp),
            by intro q hc; exact absurd hc (by simp),
            by intro s p hc; exact absurd hc (by simp)⟩
        · -- RESET succeeded: the full trace was sent
          rw [hreset] at hfs
          simp only [if_true] at hfs
          injection hfs with h1 h2
          refine hfinish
            [UStep.reset ((s2 + 1) % 65536),
             UStep.getVersion (((s2 + 1) % 65536 + 1) % 65536)] ok ?_
            (by rw [← h1])
          intro st h
          rcases List.mem_cons.mp h with h3 | h3
          · subst h3
            exact ⟨by intro a b c hc; exact absurd hc (by simp),
              by intro q hc; exact absurd hc (by simp),
              by intro s p hc; exact absurd hc (by simp)⟩
          · have h4 := List.mem_singleton.mp h3
            subst h4
            exact ⟨by intro a b c hc; exact absurd hc (by simp),
              by intro q hc; exact absurd hc (by simp),
              by intro s p hc; exact absurd hc (by simp)⟩

theorem updatePre_steps {force : Bool} {version : List Nat}
    {env : UStep → Option (Nat × List Nat)} {tr0 : List UStep} {s1 : Nat}
    (h : updatePre force version env = some (tr0, s1)) :
    ∀ st ∈ tr0, ∃ q, st = UStep.getVersion q := by
  rcases hf : force with _ | _
  · rw [updatePre, hf] at h
    simp only [Bool.false_eq_true, if_false] at h
    rcases he : env (UStep.getVersion 0) with _ | p
    · simp only [he] at h
      exact absurd h (by simp)
    · obtain ⟨st2, vcur⟩ := p
      rcases st2 with _ | st3
      · simp only [he] at h
        split at h
        · exact absurd h (by simp)
        · split at h
          · exact absurd h (by simp)
          · simp only [Option.some.injEq, Prod.mk.injEq] at h
            obtain ⟨h1, _⟩ := h
            subst h1
            intro st hst
            have h2 := List.mem_singleton.mp hst
            subst h2
            exact ⟨0, rfl⟩
      · simp only [he] at h
        exact absurd h (by simp)
  · rw [updatePre, hf] at h
    simp only [if_true, Option.some.injEq, Prod.mk.injEq] at h
    obtain ⟨h1, _⟩ := h
    subst h1
    intro st hst
    simp at hst

theorem abortProps_append {env : UStep → Option (Nat × List Nat)}
    {tr0 tr1 : List UStep} {ok : Bool}
    (h0 : ∀ st ∈ tr0, ∃ q, st = UStep.getVersion q)
    (h1 : AbortProps env tr1 ok) :
    AbortProps env (tr0 ++ tr1) ok := by
  obtain ⟨hA, hB, hC⟩ := h1
  refine ⟨?_, ?_, ?_⟩
  · intro s hs hf
    rcases List.mem_append.mp hs with h2 | h2
    · obtain ⟨q, hq⟩ := h0 _ h2
      exact absurd hq (by simp)
    · obtain ⟨hw, hok⟩ := hA s h2 hf
      refine ⟨?_, hok⟩
      intro a b c hmem
      rcases List.mem_append.mp hmem with h3 | h3
      · obtain ⟨q, hq⟩ := h0 _ h3
        exact absurd hq (by simp)
      · exact hw a b c h3
  · intro s p f hs hf
    rcases List.mem_append.mp hs with h2 | h2
    · obtain ⟨q, hq⟩ := h0 _ h2
      exact absurd hq (by simp)
    · obtain ⟨hr, hok⟩ := hB s p f h2 hf
      refine ⟨?_, hok⟩
      intro q hmem
      rcases List.mem_append.mp hmem with h3 | h3
      · obtain ⟨q2, hq⟩ := h0 _ h3
        exact absurd hq (by simp)
      · exact hr q h3
  · intro s p hs hf
    rcases List.mem_append.mp hs with h2 | h2
    · obtain ⟨q, hq⟩ := h0 _ h2
      exact absurd hq (by simp)
    · obtain ⟨hr, hok⟩ := hC s p h2 hf
      refine ⟨?_, hok⟩
      intro q hmem
      rcases List.mem_append.mp hmem with h3 | h3
      · obtain ⟨q2, hq⟩ := h0 _ h3
        exact absurd hq (by simp)
      · exact hr q h3

/-- C9: in `update`, a `START` sub-command whose response is absent or
carries a non-zero status means no `WRITE` sub-command is ever sent and
`update` returns `False`; a failed `WRITE` or a failed `CHECK` means no
`RESET` sub-command is ever sent and `update` returns `False`. -/

theorem firmware_update_abort_order (force : Bool) (fw : List Nat)
    (env : UStep → Option (Nat × List Nat)) :
    AbortProps env (updateModel force fw env).1 (updateModel force fw env).2 := by
  by_cases hshort : fw.length < 16
  · have hu : updateModel force fw env = ([], false) := by
      rw [updateModel, if_pos hshort]
    rw [hu]
    exact ⟨fun s hs => absurd hs (by simp),
      fun s p f hs => absurd hs (by simp),
      fun s p hs => absurd hs (by simp)⟩
  · rcases hpre : updatePre force (fw.drop (fw.length - 12)) env with _ | p
    · have hu : updateModel force fw env =
          (if force then [] else [UStep.getVersion 0], false) := by
        rw [updateModel, if_neg hshort]
        simp only [hpre]
      rw [hu]
      have hmem : ∀ st : UStep,
          st ∈ (if force then ([] : List UStep) else [UStep.getVersion 0]) →
          st = UStep.getVersion 0 := by
        intro st h
        cases force with
        | true => simp at h
        | false =>
          simp only [Bool.false_eq_true, if_false] at h
          exact List.mem_singleton.mp h
      exact ⟨fun s hs => absurd (hmem _ hs) (by simp),
        fun s p f hs => absurd (hmem _ hs) (by simp),
        fun s p hs => absurd (hmem _ hs) (by simp)⟩
    · obtain ⟨tr0, s1⟩ := p
      rcases hfs : updateFromStart env (fw.take (fw.length - 16))
          (fw.drop (fw.length - 12)) s1 with ⟨tr1, ok1⟩
      have hu : updateModel force fw env = (tr0 ++ tr1, ok1) := by
        rw [updateModel, if_neg hshort]
        simp only [hpre, hfs]
      rw [hu]
      exact abortProps_append (updatePre_steps hpre) (updateFromStart_props hfs)
